import Mathlib

/-!
Verification of the seam-carving engine in `image_processing/seamcarve.py`.

The Python module works on a mutable object graph: `SeamCarveData` objects
hold `energy` (cumulative), `x`, `y`, `parent_choices` and `parent`
references, and a grid `energies : List (List SeamCarveData)` of rows of
such objects.  We model the object heap as an allocation-ordered list
`store : List SCData`; object references become indices (`Nat`) into the
store, so aliasing (several rows or `parent` fields pointing at the same
mutable object, including objects already deleted from the grid) is
preserved exactly.  Machine floats from the gradient filter are modelled
as exact integers: every claim below is about the bookkeeping of the
carving algorithm, not about floating-point rounding.

Fallible list indexing (Python `IndexError`) is modelled in `Except CErr`.
-/

set_option maxRecDepth 4000

/-- Python exceptions that the carving code can raise: `outOfRange` is the
`seam_starts[i]` lookup in `vertical_seamcarve` (the spec's OutOfRange),
`indexError` any other out-of-bounds list access. -/
inductive CErr where
  | outOfRange : CErr
  | indexError : CErr
deriving DecidableEq, Repr

/-- One `SeamCarveData` object (seamcarve.py lines 14-21): `energy` starts as
the local gradient magnitude and is overwritten with the cumulative energy by
`choose_parent`; `x`, `y` are the construction-time coordinates;
`parent_choices` and `parent` are references (store indices). -/
structure SCData where
  energy : Int
  x : Nat
  y : Nat
  parent_choices : List Nat
  parent : Option Nat
deriving DecidableEq, Repr

instance : Inhabited SCData := ⟨⟨0, 0, 0, [], none⟩⟩

/-- Dereference a store index (total; all reachable indices are in range). -/
def nodeAt (store : List SCData) (i : Nat) : SCData :=
  store.getD i default

/-- `SeamCarveData.__eq__` (lines 26-30): equality looks only at coordinates. -/
def scEq (a b : SCData) : Bool :=
  a.x == b.x && a.y == b.y

/-- `SeamCarveData.__lt__` (lines 32-36): ordering looks only at `x`. -/
def scLt (a b : SCData) : Bool :=
  a.x < b.x

/-- `SeamCarveData.choose_parent` (lines 62-76).  The Python loop starts from
`parent_choices[0]` and replaces the candidate only on a strictly smaller
energy, so on ties the first candidate in list order wins; the new energy is
`energy - old_parent_energy + new_parent_energy` where `old_parent_energy`
is the *current* energy of the old parent object (0 if none).  An empty
`parent_choices` raises in Python and is unreachable on the states the
code builds; it is modelled as a no-op. -/
def choose_parent (store : List SCData) (id : Nat) : List SCData :=
  let sc := nodeAt store id
  let old_parent_energy : Int :=
    match sc.parent with
    | none => 0
    | some p => (nodeAt store p).energy
  match sc.parent_choices with
  | [] => store
  | c0 :: _ =>
    let chosen := sc.parent_choices.foldl
      (fun acc c =>
        if (nodeAt store c).energy < acc.2 then (c, (nodeAt store c).energy) else acc)
      (c0, (nodeAt store c0).energy)
    store.set id
      { sc with parent := some chosen.1,
                energy := sc.energy - old_parent_energy + chosen.2 }

/-- Gradient value at `(y, x)` of the input grid (grad_mags). -/
def gval (grid : List (List Int)) (y x : Nat) : Int :=
  (grid.getD y []).getD x 0

/-- The parent candidates collected in `calculate_sc_datas` (lines 275-286):
left (`x-1`, only if `x > 0`), middle (`x`), right (`x+1`, only if
`x < width - 1`), as store indices into the previous row, which during the
build holds ids `(y-1)*W + x'`. -/
def mkCellChoices (W y x : Nat) : List Nat :=
  (if 0 < x then [(y - 1) * W + (x - 1)] else []) ++
  [(y - 1) * W + x] ++
  (if x < W - 1 then [(y - 1) * W + (x + 1)] else [])

/-- Allocate the cell `(y, x)` during the build (lines 268-298): append the
fresh object (energy = gradient magnitude, empty parents for row 0) and, for
`y > 0`, run `choose_parent` on it against the previous row. -/
def mkCell (grid : List (List Int)) (W y x : Nat) (store : List SCData) : List SCData :=
  if y = 0 then
    store ++ [⟨gval grid 0 x, x, 0, [], none⟩]
  else
    choose_parent (store ++ [⟨gval grid y x, x, y, mkCellChoices W y x, none⟩])
      store.length

/-- Build the first `n` cells of row `y` (inner loop of `calculate_sc_datas`). -/
def buildCols (grid : List (List Int)) (W y : Nat) (store : List SCData) : Nat → List SCData
  | 0 => store
  | x + 1 => mkCell grid W y x (buildCols grid W y store x)

/-- Build the first `y` rows (outer loop of `calculate_sc_datas`). -/
def buildGrid (grid : List (List Int)) (W : Nat) : Nat → List SCData
  | 0 => []
  | y + 1 => buildCols grid W y (buildGrid grid W y) W

/-- Row lists produced by the build: row `y` holds ids `y*W .. y*W + W - 1`
in order (each row is appended left to right). -/
def buildEnergies (H W : Nat) : List (List Nat) :=
  (List.range H).map (fun y => (List.range W).map (fun x => y * W + x))

/-- The `min_e` / `max_e` bookkeeping of `calculate_sc_datas` (lines 261-296):
starting from `(sys.maxsize, 0)`, fold the cumulative energy of every cell in
build order. -/
def scanMinMax (store : List SCData) (H W : Nat) : Int × Int :=
  (List.range H).foldl
    (fun mm y =>
      (List.range W).foldl
        (fun mm x =>
          let e := (nodeAt store (y * W + x)).energy
          (if e < mm.1 then e else mm.1, if mm.2 < e then e else mm.2))
        mm)
    (9223372036854775807, 0)

/-- Result of `calculate_sc_datas`: store, grid of rows of ids, and the
observed min/max cumulative energies. -/
structure SCGraph where
  store : List SCData
  energies : List (List Nat)
  min_e : Int
  max_e : Int
deriving Repr

/-- `calculate_sc_datas` (lines 257-302): width/height are the shape of the
gradient grid. -/
def calculate_sc_datas (grid : List (List Int)) : SCGraph :=
  let H := grid.length
  let W := (grid.headD []).length
  let store := buildGrid grid W H
  let mm := scanMinMax store H W
  ⟨store, buildEnergies H W, mm.1, mm.2⟩

/-- Python `bisect.bisect_left(row, target)`: rows are kept sorted strictly
ascending by `x` and bisect compares with `__lt__` (`scLt`), so the leftmost
insertion point is the number of entries whose `x` is strictly below the
target's. -/
def bisect_left (store : List SCData) (row : List Nat) (target : SCData) : Nat :=
  row.countP (fun id => scLt (nodeAt store id) target)

/-- Stable insertion for `sortByEnergy`: the incoming element (which precedes
the already-sorted tail in the original list) is placed before the first
element with an equal or larger key, mirroring Python's stable `sorted`. -/
def sortedInsert (store : List SCData) (a : Nat) : List Nat → List Nat
  | [] => [a]
  | b :: bs =>
    if (nodeAt store a).energy ≤ (nodeAt store b).energy then a :: b :: bs
    else b :: sortedInsert store a bs

/-- Python `sorted(row, key=lambda sc: sc.energy)` (line 129): stable sort by
current cumulative energy. -/
def sortByEnergy (store : List SCData) : List Nat → List Nat
  | [] => []
  | a :: rest => sortedInsert store a (sortByEnergy store rest)

/-- The seam backtrace (lines 133-137): follow `parent` links, root first.
Python loops until `parent is None`; parents always point one row up on
reachable states, so `fuel = store.length` never runs out. -/
def chainUp (store : List SCData) : Nat → Nat → List Nat
  | 0, id => [id]
  | fuel + 1, id =>
    match (nodeAt store id).parent with
    | none => [id]
    | some p => chainUp store fuel p ++ [id]

/-- Mutable state of one carving session: the object store, the grid of rows
of ids, and the output pixel buffer (RGBA quadruples). -/
structure CarveState where
  store : List SCData
  energies : List (List Nat)
  out : List (List (List Int))
deriving Repr, DecidableEq

instance : Inhabited CarveState := ⟨⟨[], [], []⟩⟩

/-- Lines 143-158: handle one seam element — locate it in its row via bisect,
then either paint the output pixel at its original coordinates
(`show_carve`) or delete pixel and node at the located row position and pad
the pixel row with a transparent pixel (commit mode).  Out-of-bounds
accesses (impossible on reachable states) are Python `IndexError`s. -/
def removePhase (show_carve : Bool) (st : CarveState) (elemOpt : Option Nat) :
    Except CErr CarveState :=
  match elemOpt with
  | none => .ok st
  | some elem =>
    let e := nodeAt st.store elem
    match st.energies.get? e.y, st.out.get? e.y with
    | some row, some orow =>
      let elem_row_index := bisect_left st.store row e
      if show_carve then
        if e.x < orow.length then
          .ok { st with out := st.out.set e.y (orow.set e.x [255, 0, 0, 254]) }
        else .error .indexError
      else
        if elem_row_index < orow.length ∧ elem_row_index < row.length then
          .ok { st with
                out := st.out.set e.y (orow.eraseIdx elem_row_index ++ [[0, 0, 0, 0]]),
                energies := st.energies.set e.y (row.eraseIdx elem_row_index) }
        else .error .indexError
    | _, _ => .error .indexError

/-- Lines 215-234: re-choose the parents of one node of the affected window.
The left candidate `prow.getD (ai - 1) 0` is only read under `0 < ai`, and
the middle access already guarantees `ai < prow.length`, so the `getD` never
pads.  After `choose_parent`, `energies[update_index][ai] = sc_data`
writes the id back at the bisect position. -/
def repairNode (st : CarveState) (update_index sc_id : Nat) : Except CErr CarveState :=
  match st.energies.get? update_index, st.energies.get? (update_index - 1) with
  | some row, some prow =>
    let sc := nodeAt st.store sc_id
    let ai := bisect_left st.store row sc
    let left := if 0 < ai then [prow.getD (ai - 1) 0] else []
    let rightOpt : Option (List Nat) :=
      if ai < row.length - 1 then (prow.get? (ai + 1)).map (fun v => [v]) else some []
    match prow.get? ai, rightOpt with
    | some middle, some right =>
      let choices := left ++ [middle] ++ right
      let store2 := choose_parent (st.store.set sc_id { sc with parent_choices := choices }) sc_id
      .ok { st with
            store := store2,
            energies := st.energies.set update_index (row.set ai sc_id) }
    | _, _ => .error .indexError
  | _, _ => .error .indexError

/-- Lines 197-234: once `sindex >= 2`, repair the window of row
`update_index = sindex - 1` around the bisect position of the (already
deleted) seam element: the slice `[uei - update_index : uei + update_index]`
(start clamped at 0, end clipped by the slice itself). -/
def repairPhase (st : CarveState) (seam : List (Option Nat)) (sindex : Nat) :
    Except CErr CarveState :=
  if sindex < 2 then .ok st
  else
    let update_index := sindex - 1
    match seam.get? update_index with
    | some (some update_elem) =>
      match st.energies.get? update_index with
      | some urow =>
        let uei := bisect_left st.store urow (nodeAt st.store update_elem)
        let start := uei - update_index
        let affected := (urow.drop start).take (uei + update_index - start)
        affected.foldlM (fun s id => repairNode s update_index id) st
      | none => .error .indexError
    | _ => .error .indexError

/-- One step of the `for sindex, elem in enumerate(seam)` loop (lines
143-234): removal/paint handling, then the windowed repair. -/
def processSindex (show_carve : Bool) (seam : List (Option Nat)) (st : CarveState)
    (p : Nat × Option Nat) : Except CErr CarveState :=
  match removePhase show_carve st p.2 with
  | .ok st1 => repairPhase st1 seam p.1
  | .error err => .error err

/-- One iteration of the carve loop (lines 124-234): sort the current bottom
row by energy, take the `i`-th entry (`OutOfRange` if the row is shorter),
backtrace the seam, append the `None` dummy, and process every `sindex`. -/
def carveStep (show_carve : Bool) (st : CarveState) (i : Nat) : Except CErr CarveState :=
  match st.energies.getLast? with
  | none => .error .indexError
  | some bottom =>
    let seam_starts := sortByEnergy st.store bottom
    match seam_starts.get? i with
    | none => .error .outOfRange
    | some min_sc_data =>
      let seam := (chainUp st.store st.store.length min_sc_data).map some ++ [none]
      seam.enum.foldlM (processSindex show_carve seam) st

/-- `for i in range(count)` (line 124). -/
def runCarves (show_carve : Bool) (st : CarveState) (n : Nat) : Except CErr CarveState :=
  (List.range n).foldlM (carveStep show_carve) st

/-- `count = math.floor(min(((100-percent) / 100) * image.width, image.width))`
(line 122). -/
def seamCount (percent : Rat) (W : Nat) : Int :=
  Int.floor (min (((100 - percent) / 100) * (W : Rat)) (W : Rat))

/-- Lines 106-114: the initial output buffer is either the energy
visualization `(energy, energy, energy, 254)` per node or a copy of the
color pixels. -/
def initState (color : List (List (List Int))) (g : SCGraph) (show_energy : Bool) :
    CarveState :=
  let out0 :=
    if show_energy then
      g.energies.map (fun row => row.map (fun id =>
        let e := (nodeAt g.store id).energy
        [e, e, e, 254]))
    else color
  ⟨g.store, g.energies, out0⟩

/-- `vertical_seamcarve` (lines 78-245) without the file / timing I/O:
build the graph from the gradient grid, run `count` carve iterations, and
return the pixel buffer cut down to its first `width - count` columns
(line 240's `hsplit`). -/
def vertical_seamcarve (color : List (List (List Int))) (grads : List (List Int))
    (percent : Rat) (show_carve show_energy : Bool) :
    Except CErr (List (List (List Int))) :=
  let W := (color.headD []).length
  let g := calculate_sc_datas grads
  let count := seamCount percent W
  match runCarves show_carve (initState color g show_energy) count.toNat with
  | .ok st => .ok (st.out.map (fun row => row.take ((W : Int) - count).toNat))
  | .error err => .error err

/-! ## Derived views of a carve state, used to state the claims -/

/-- Forget the min/max bookkeeping and view a freshly built graph as a carve
state (empty output buffer; the claims below only look at store/energies). -/
def asState (g : SCGraph) : CarveState :=
  ⟨g.store, g.energies, []⟩

/-- The grid of current cumulative energies, row by row. -/
def energiesGridOf (st : CarveState) : List (List Int) :=
  st.energies.map (fun row => row.map (fun id => (nodeAt st.store id).energy))

/-- The grid of local energies (original gradient magnitudes) of the
surviving nodes, row by row: the "post-removal energy data" that a
from-scratch rebuild would be run on. -/
def localGridOf (grid : List (List Int)) (st : CarveState) : List (List Int) :=
  st.energies.map (fun row : List Nat => row.map (fun id =>
    gval grid (nodeAt st.store id).y (nodeAt st.store id).x))

/-- The predecessor candidates of the node at position `j` of row `r` in the
*current* grid: left / middle / right by position, clipped at the row edges
exactly as the source builds them (build lines 275-286, repair lines
219-230). -/
def candIdsAt (st : CarveState) (r j : Nat) : List Nat :=
  let row := st.energies.getD r []
  let prow := st.energies.getD (r - 1) []
  (if 0 < j then [prow.getD (j - 1) 0] else []) ++
  [prow.getD j 0] ++
  (if j < row.length - 1 then [prow.getD (j + 1) 0] else [])

/-- Minimum current cumulative energy over a candidate list. -/
def minEnergyOf (store : List SCData) (l : List Nat) : Int :=
  match l with
  | [] => 0
  | c :: cs => cs.foldl (fun m c2 => min m (nodeAt store c2).energy) (nodeAt store c).energy

/-- First candidate (in list order) attaining the minimum energy: the
documented tie-break of `choose_parent`. -/
def firstMinId (store : List SCData) (l : List Nat) : Option Nat :=
  match l with
  | [] => none
  | c :: _ =>
    some (l.foldl
      (fun acc c2 => if (nodeAt store c2).energy < (nodeAt store acc).energy then c2 else acc) c)

/-- The per-node invariant of claim C2 at row `r`, position `j` of the
current grid: `cumulativeEnergy = localEnergy + min(candidate energies)` and
the stored predecessor is the first minimal candidate in left-middle-right
order. -/
def scInvariantHolds (grid : List (List Int)) (st : CarveState) (r j : Nat) : Bool :=
  let id := (st.energies.getD r []).getD j 0
  let sc := nodeAt st.store id
  (sc.energy == gval grid sc.y sc.x + minEnergyOf st.store (candIdsAt st r j))
  && (sc.parent == firstMinId st.store (candIdsAt st r j))

/-- Modelled from the spec (§4.4): the display value the spec prescribes for
visualize-energy mode, `cumulativeEnergy` linearly interpolated from
`[minEnergy, maxEnergy]` onto `[0, 255]`.  The source computes `min_e`/`max_e`
but never applies this interpolation. -/
def specNormalizedEnergy (mn mx e : Int) : Rat :=
  ((e - mn : Int) : Rat) * 255 / ((mx - mn : Int) : Rat)

/-! ## Concrete instances used by the counterexamples -/

/-- An arbitrary opaque-ish RGBA pixel. -/
def pix7 : List Int := [7, 7, 7, 254]

/-- 2 x 3 gradient grid on which one removal + repair diverges from a
rebuild: the seam is `(0,1)-(1,0)`, and the bottom-right node keeps its
stale parent (the deleted node) outside the repair window. -/
def gridRepair : List (List Int) := [[1, 0, 1], [0, 0, 0]]

/-- Matching 2 x 3 color buffer. -/
def colorsRepair : List (List (List Int)) := [[pix7, pix7, pix7], [pix7, pix7, pix7]]

/-- The state after one commit-mode removal + repair pass on `gridRepair`. -/
def exAfterOne : CarveState :=
  ((carveStep false (initState colorsRepair (calculate_sc_datas gridRepair) false) 0).toOption).getD
    default

/-- 1 x 4 color row and flat gradients for the OutOfRange run. -/
def colorsRow4 : List (List (List Int)) := [[pix7, pix7, pix7, pix7]]

/-- Flat 1 x 4 gradient grid. -/
def gridRow4 : List (List Int) := [[0, 0, 0, 0]]

/-- 1 x 2 image for the visualize-path run. -/
def colorsRow2 : List (List (List Int)) := [[pix7, pix7]]

instance {e a : Type} [DecidableEq e] [DecidableEq a] : DecidableEq (Except e a) := fun u v =>
  match u, v with
  | .error x, .error y =>
    if h : x = y then isTrue (congrArg Except.error h)
    else isFalse (fun hc => h (Except.error.inj hc))
  | .error _, .ok _ => isFalse (fun hc => Except.noConfusion hc)
  | .ok _, .error _ => isFalse (fun hc => Except.noConfusion hc)
  | .ok x, .ok y =>
    if h : x = y then isTrue (congrArg Except.ok h)
    else isFalse (fun hc => h (Except.ok.inj hc))

/-! ## Counterexample / evaluation theorems on concrete runs -/

theorem seamCount_25_4 : seamCount 25 4 = 3 := by
  unfold seamCount; norm_num [min_def]

theorem seamCount_0_1 : seamCount 0 1 = 1 := by
  unfold seamCount; norm_num [min_def]

theorem seamCount_100 (W : Nat) : seamCount 100 W = 0 := by
  unfold seamCount; norm_num [min_def]

theorem seamCount_50_2 : seamCount 50 2 = 1 := by
  unfold seamCount; norm_num [min_def]

/-- C1: the incremental repair pass is *not* equivalent to a rebuild.  On
`gridRepair`, one commit-mode removal succeeds and leaves cumulative
energies `[[1,1],[1,0]]`, while rebuilding from scratch on the surviving
local energies gives `[[1,1],[1,1]]`: the bottom-right node (outside the
repair window, its parent deleted) is off by a full energy unit. -/
theorem C1_repair_not_equiv_rebuild :
    (carveStep false (initState colorsRepair (calculate_sc_datas gridRepair) false)
        0).toOption.isSome = true
    ∧ energiesGridOf exAfterOne = [[1, 1], [1, 0]]
    ∧ localGridOf gridRepair exAfterOne = [[1, 1], [0, 0]]
    ∧ energiesGridOf (asState (calculate_sc_datas (localGridOf gridRepair exAfterOne)))
        = [[1, 1], [1, 1]] := by
  decide

/-- C2 (counterexample part): the per-node invariant fails immediately after
a repair: node at row 1, position 1 of `exAfterOne` has cumulative energy 0
but `localEnergy + min(candidates) = 0 + 1`. -/
theorem C2_invariant_fails_after_repair :
    (carveStep false (initState colorsRepair (calculate_sc_datas gridRepair) false)
        0).toOption.isSome = true
    ∧ scInvariantHolds gridRepair exAfterOne 1 1 = false := by
  decide

/-- C3: with `width = 4` and `percent = 25` the computed count is 3
(`0 < 3 < 4`), yet the run raises OutOfRange: at iteration `i = 2` the
bottom row has shrunk to 2 entries, so `seam_starts[2]` is out of range —
the failure branch the claim calls unreachable is reached. -/
theorem C3_out_of_range_reachable :
    seamCount 25 4 = 3
    ∧ vertical_seamcarve colorsRow4 gridRow4 25 false false = .error .outOfRange := by
  refine ⟨seamCount_25_4, ?_⟩
  unfold vertical_seamcarve
  simp only [show (colorsRow4.headD []).length = 4 from rfl, seamCount_25_4]
  decide

/-- C4: `percent = 0` on a 1 x 1 image sets `count = width = 1`; instead of
failing with InvalidArgument before any mutation, the run succeeds and
silently returns an empty (zero-width) image. -/
theorem C4_count_eq_width_not_rejected :
    seamCount 0 1 = 1
    ∧ vertical_seamcarve [[pix7]] [[5]] 0 false false = .ok [[]] := by
  refine ⟨seamCount_0_1, ?_⟩
  unfold vertical_seamcarve
  simp only [show (([[pix7]] : List (List (List Int))).headD []).length = 1 from rfl,
    seamCount_0_1]
  decide

/-- C5 (counterexample part): after the removal on `gridRepair`, row 0 keeps
x-values `[0, 2]` — the surviving node originally right of the removed seam
node is *not* decremented, and the row's column values are no longer the
contiguous range `[0, rowLength-1] = [0, 1]`. -/
theorem C5_cols_not_reindexed :
    (carveStep false (initState colorsRepair (calculate_sc_datas gridRepair) false)
        0).toOption.isSome = true
    ∧ (exAfterOne.energies.getD 0 []).map (fun id => (nodeAt exAfterOne.store id).x) = [0, 2]
    ∧ [0, 2] ≠ List.range 2 := by
  decide

/-- C7 (counterexample part): in visualize-energy mode the output holds the
raw cumulative energy `(e, e, e, 254)`, not the `[min_e, max_e] → [0, 255]`
interpolation: on `[[0, 10]]` the second pixel is 10 although the
interpolation of the maximal energy is 255. -/
theorem C7_energy_not_normalized :
    vertical_seamcarve colorsRow2 [[0, 10]] 100 false true
        = .ok [[[0, 0, 0, 254], [10, 10, 10, 254]]]
    ∧ (calculate_sc_datas [[0, 10]]).min_e = 0
    ∧ (calculate_sc_datas [[0, 10]]).max_e = 10
    ∧ specNormalizedEnergy 0 10 10 = 255
    ∧ (10 : Rat) ≠ 255 := by
  refine ⟨?_, by decide, by decide, by unfold specNormalizedEnergy; norm_num, by norm_num⟩
  unfold vertical_seamcarve
  simp only [show (colorsRow2.headD []).length = 2 from rfl, seamCount_100]
  decide

/-- C8 (counterexample part): in visualize-path mode the returned buffer is
*not* of the original dimensions: on a 1 x 2 image with `count = 1` the
painted buffer is cut to width 1 by the final `hsplit`, same as commit
mode. -/
theorem C8_visualize_output_cropped :
    vertical_seamcarve colorsRow2 [[0, 0]] 50 true false = .ok [[[255, 0, 0, 254]]]
    ∧ ([[[255, 0, 0, 254]]] : List (List (List Int))).map List.length
        ≠ colorsRow2.map List.length := by
  refine ⟨?_, by decide⟩
  unfold vertical_seamcarve
  simp only [show (colorsRow2.headD []).length = 2 from rfl, seamCount_50_2]
  decide

/-! ## C9: count formula and the count <= 0 no-op -/

/-- C9: the seam count is
`floor(min(((100 - percent)/100) * width, width))`, and whenever that count
is `<= 0` (in particular `percent = 100`) commit-mode carving returns the
original pixel grid unchanged — a no-op, not an error. -/
theorem C9_count_formula_and_noop (colors : List (List (List Int)))
    (grads : List (List Int)) (percent : Rat)
    (hrect : ∀ r ∈ colors, r.length = (colors.headD []).length)
    (hc : seamCount percent (colors.headD []).length ≤ 0) :
    seamCount percent (colors.headD []).length
      = Int.floor (min (((100 - percent) / 100) * ((colors.headD []).length : Rat))
          (((colors.headD []).length : Rat)))
    ∧ vertical_seamcarve colors grads percent false false = .ok colors := by
  refine ⟨rfl, ?_⟩
  unfold vertical_seamcarve
  show (match runCarves false (initState colors (calculate_sc_datas grads) false)
      (seamCount percent (colors.headD []).length).toNat with
    | Except.ok st => Except.ok (st.out.map (fun row =>
        row.take (((colors.headD []).length : Int)
          - seamCount percent (colors.headD []).length).toNat))
    | Except.error err => Except.error err) = Except.ok colors
  rw [Int.toNat_of_nonpos hc]
  show Except.ok (colors.map _) = _
  refine congrArg Except.ok ?_
  have hn : ∀ r ∈ colors, r.length
      ≤ (((colors.headD []).length : Int) - seamCount percent (colors.headD []).length).toNat := by
    intro r hr
    rw [hrect r hr]
    have h0 : ((colors.headD []).length : Int)
        ≤ ((colors.headD []).length : Int) - seamCount percent (colors.headD []).length := by
      omega
    omega
  calc colors.map (fun row => row.take
          (((colors.headD []).length : Int) - seamCount percent (colors.headD []).length).toNat)
      = colors.map id := List.map_congr_left (fun r hr => List.take_of_length_le (hn r hr))
    _ = colors := List.map_id colors

/-- Witness for C9: `percent = 100` on the 2 x 3 image is a no-op. -/
theorem C9_count_formula_and_noop_witness :
    (∀ r ∈ colorsRepair, r.length = (colorsRepair.headD []).length)
    ∧ seamCount 100 (colorsRepair.headD []).length ≤ 0
    ∧ (seamCount 100 (colorsRepair.headD []).length
        = Int.floor (min (((100 - (100 : Rat)) / 100) * ((colorsRepair.headD []).length : Rat))
            (((colorsRepair.headD []).length : Rat)))
      ∧ vertical_seamcarve colorsRepair gridRepair 100 false false = .ok colorsRepair) :=
  ⟨by decide, by simp [seamCount_100],
    C9_count_formula_and_noop colorsRepair gridRepair 100 (by decide) (by simp [seamCount_100])⟩

/-! ## Characterization of the freshly built store -/

theorem choose_parent_length (store : List SCData) (id : Nat) :
    (choose_parent store id).length = store.length := by
  simp only [choose_parent]
  split <;> simp

theorem mkCell_length (grid : List (List Int)) (W y x : Nat) (store : List SCData) :
    (mkCell grid W y x store).length = store.length + 1 := by
  unfold mkCell
  split <;> simp [choose_parent_length]

theorem buildCols_length (grid : List (List Int)) (W y : Nat) (store : List SCData) (n : Nat) :
    (buildCols grid W y store n).length = store.length + n := by
  induction n with
  | zero => rfl
  | succ m ih =>
    show (mkCell grid W y m (buildCols grid W y store m)).length = _
    rw [mkCell_length, ih]
    omega

theorem buildGrid_length (grid : List (List Int)) (W y : Nat) :
    (buildGrid grid W y).length = y * W := by
  induction y with
  | zero => simp [buildGrid]
  | succ m ih =>
    show (buildCols grid W m (buildGrid grid W m) W).length = _
    rw [buildCols_length, ih, Nat.succ_mul]

theorem choose_parent_get?_ne (store : List SCData) (id j : Nat) (h : j ≠ id) :
    (choose_parent store id).get? j = store.get? j := by
  simp only [choose_parent]
  split
  · rfl
  · exact List.get?_set_ne _ _ (fun hc => h hc.symm)

theorem mkCell_get?_lt (grid : List (List Int)) (W y x : Nat) (store : List SCData)
    {j : Nat} (h : j < store.length) :
    (mkCell grid W y x store).get? j = store.get? j := by
  simp only [mkCell]
  split
  · exact List.get?_append h
  · rw [choose_parent_get?_ne _ _ _ (Nat.ne_of_lt h), List.get?_append h]

theorem buildCols_get?_lt (grid : List (List Int)) (W y : Nat) (store : List SCData)
    (n : Nat) {j : Nat} (h : j < store.length) :
    (buildCols grid W y store n).get? j = store.get? j := by
  induction n with
  | zero => rfl
  | succ m ih =>
    show (mkCell grid W y m (buildCols grid W y store m)).get? j = _
    rw [mkCell_get?_lt]
    · exact ih
    · rw [buildCols_length]; omega

theorem buildGrid_get?_mono (grid : List (List Int)) (W : Nat) {y y' j : Nat}
    (hj : j < y * W) (hy : y ≤ y') :
    (buildGrid grid W y').get? j = (buildGrid grid W y).get? j := by
  induction y' with
  | zero =>
    have : y = 0 := Nat.le_zero.mp hy
    rw [this]
  | succ m ih =>
    rcases Nat.lt_or_ge m y with hlt | hge
    · have : y = m + 1 := by omega
      rw [this]
    · show (buildCols grid W m (buildGrid grid W m) W).get? j = _
      rw [buildCols_get?_lt, ih hge]
      rw [buildGrid_length]
      have : y * W ≤ m * W := Nat.mul_le_mul_right W hge
      omega

theorem buildCols_get?_new (grid : List (List Int)) (W y : Nat) (store : List SCData)
    {n x : Nat} (hx : x < n) :
    (buildCols grid W y store n).get? (store.length + x)
      = (mkCell grid W y x (buildCols grid W y store x)).get? (store.length + x) := by
  induction n with
  | zero => omega
  | succ m ih =>
    rcases Nat.lt_or_ge x m with hlt | hge
    · show (mkCell grid W y m (buildCols grid W y store m)).get? _ = _
      rw [mkCell_get?_lt, ih hlt]
      rw [buildCols_length]; omega
    · have hxm : x = m := by omega
      subst hxm
      rfl

theorem get?_concat_of_length {α : Type} (l : List α) (a : α) {n : Nat}
    (h : l.length = n) : (l ++ [a]).get? n = some a := by
  subst h; exact List.get?_concat_length l a

theorem nodeAt_of_get? {store : List SCData} {i : Nat} {sc : SCData}
    (h : store.get? i = some sc) : nodeAt store i = sc := by
  unfold nodeAt
  rw [List.getD_eq_getD_get?, h]
  rfl

theorem nodeAt_eq_of_get?_eq {l l' : List SCData} {i : Nat}
    (h : l.get? i = l'.get? i) : nodeAt l i = nodeAt l' i := by
  unfold nodeAt
  rw [List.getD_eq_getD_get?, List.getD_eq_getD_get?, h]

/-- The pair fold in `choose_parent` computes (first minimizer, minimum). -/
theorem foldl_pair_spec (e : Nat → Int) (l : List Nat) : ∀ c0 : Nat,
    l.foldl (fun acc c => if e c < acc.2 then (c, e c) else acc) (c0, e c0)
      = (l.foldl (fun acc c => if e c < e acc then c else acc) c0,
         l.foldl (fun m c => min m (e c)) (e c0)) := by
  induction l with
  | nil => intro c0; rfl
  | cons a rest ih =>
    intro c0
    simp only [List.foldl_cons]
    by_cases h : e a < e c0
    · rw [if_pos h, if_pos h, min_eq_right (le_of_lt h), ih a]
    · rw [if_neg h, if_neg h, min_eq_left (not_lt.mp h), ih c0]

theorem foldl_min_congr (e1 e2 : Nat → Int) (l : List Nat)
    (h : ∀ c ∈ l, e1 c = e2 c) : ∀ m : Int,
    l.foldl (fun m c => min m (e1 c)) m = l.foldl (fun m c => min m (e2 c)) m := by
  induction l with
  | nil => intro m; rfl
  | cons a rest ih =>
    intro m
    simp only [List.foldl_cons]
    rw [h a (by simp)]
    exact ih (fun c hc => h c (by simp [hc])) _

theorem foldl_sel_congr (e1 e2 : Nat → Int) (l : List Nat)
    (h : ∀ c ∈ l, e1 c = e2 c) : ∀ c0 : Nat, e1 c0 = e2 c0 →
    l.foldl (fun acc c => if e1 c < e1 acc then c else acc) c0
      = l.foldl (fun acc c => if e2 c < e2 acc then c else acc) c0 := by
  induction l with
  | nil => intro c0 _; rfl
  | cons a rest ih =>
    intro c0 h0
    simp only [List.foldl_cons]
    rw [h a (by simp), h0]
    by_cases hc : e2 a < e2 c0
    · rw [if_pos hc]
      exact ih (fun c hcm => h c (by simp [hcm])) a (h a (by simp))
    · rw [if_neg hc]
      exact ih (fun c hcm => h c (by simp [hcm])) c0 h0

theorem mkCellChoices_lt (W y x : Nat) (hy : 0 < y) (hx : x < W) :
    ∀ c ∈ mkCellChoices W y x, c < y * W := by
  intro c hc
  have hyW : (y - 1) * W + W = y * W := by
    have h1 : y - 1 + 1 = y := Nat.succ_pred_eq_of_pos hy
    calc (y - 1) * W + W = (y - 1 + 1) * W := by rw [Nat.succ_mul]
      _ = y * W := by rw [h1]
  unfold mkCellChoices at hc
  by_cases h0 : 0 < x <;> by_cases h1 : x < W - 1 <;>
    simp [h0, h1] at hc <;> omega

/-- Every row-0 cell of the built store is the raw gradient node. -/
theorem build_cell_row0 (grid : List (List Int)) (W H : Nat) {x : Nat}
    (hH : 0 < H) (hx : x < W) :
    (buildGrid grid W H).get? x = some ⟨gval grid 0 x, x, 0, [], none⟩ := by
  have h1 : (buildGrid grid W H).get? x = (buildGrid grid W 1).get? x := by
    refine buildGrid_get?_mono grid W ?_ hH
    omega
  rw [h1]
  show (buildCols grid W 0 (buildGrid grid W 0) W).get? x = _
  have h5 := buildCols_get?_new grid W 0 (buildGrid grid W 0) hx
  have h0 : (buildGrid grid W 0) = ([] : List SCData) := rfl
  rw [h0] at h5
  simp only [List.length_nil, Nat.zero_add] at h5
  rw [h0, h5]
  unfold mkCell
  rw [if_pos rfl]
  exact get?_concat_of_length _ _ (by rw [buildCols_length]; simp)

theorem mkCellChoices_ne_nil (W y x : Nat) : mkCellChoices W y x ≠ [] := by
  unfold mkCellChoices
  by_cases h0 : 0 < x <;> by_cases h1 : x < W - 1 <;> simp [h0, h1]

theorem choose_fold_spec (L : List SCData) (l : List Nat) (c0 : Nat) :
    l.foldl (fun acc c => if (nodeAt L c).energy < acc.2 then (c, (nodeAt L c).energy) else acc)
      (c0, (nodeAt L c0).energy)
      = (l.foldl (fun acc c =>
            if (nodeAt L c).energy < (nodeAt L acc).energy then c else acc) c0,
         l.foldl (fun m c => min m (nodeAt L c).energy) ((nodeAt L c0).energy)) :=
  foldl_pair_spec (fun c => (nodeAt L c).energy) l c0

theorem min_fold_congr_nodeAt (L L' : List SCData) (l : List Nat)
    (h : ∀ c ∈ l, nodeAt L c = nodeAt L' c) (m : Int) :
    l.foldl (fun m c => min m (nodeAt L c).energy) m
      = l.foldl (fun m c => min m (nodeAt L' c).energy) m :=
  foldl_min_congr _ _ l (fun c hc => by rw [h c hc]) m

theorem sel_fold_congr_nodeAt (L L' : List SCData) (l : List Nat)
    (h : ∀ c ∈ l, nodeAt L c = nodeAt L' c) (c0 : Nat) (h0 : nodeAt L c0 = nodeAt L' c0) :
    l.foldl (fun acc c =>
        if (nodeAt L c).energy < (nodeAt L acc).energy then c else acc) c0
      = l.foldl (fun acc c =>
          if (nodeAt L' c).energy < (nodeAt L' acc).energy then c else acc) c0 :=
  foldl_sel_congr _ _ l (fun c hc => by rw [h c hc]) c0 (by rw [h0])

/-- Every cell of a positive row of the built store carries
`localEnergy + min(final previous-row cumulative energies)` and the first
minimal candidate as parent. -/
theorem build_cell_pos (grid : List (List Int)) (W H : Nat) {y x : Nat}
    (hy : 0 < y) (hH : y < H) (hx : x < W) :
    (buildGrid grid W H).get? (y * W + x) = some
      { energy := gval grid y x + minEnergyOf (buildGrid grid W H) (mkCellChoices W y x),
        x := x, y := y,
        parent_choices := mkCellChoices W y x,
        parent := firstMinId (buildGrid grid W H) (mkCellChoices W y x) } := by
  have hstep : (buildGrid grid W H).get? (y * W + x)
      = (buildGrid grid W (y + 1)).get? (y * W + x) := by
    refine buildGrid_get?_mono grid W ?_ hH
    rw [Nat.succ_mul]; omega
  have hcs : ∀ c ∈ mkCellChoices W y x, c < y * W := mkCellChoices_lt W y x hy hx
  have hnew := buildCols_get?_new grid W y (buildGrid grid W y) hx
  rw [buildGrid_length] at hnew
  rw [hstep]
  show (buildCols grid W y (buildGrid grid W y) W).get? (y * W + x) = _
  rw [hnew]
  obtain ⟨c0, cs, hl⟩ := List.exists_cons_of_ne_nil (mkCellChoices_ne_nil W y x)
  unfold mkCell
  rw [if_neg (Nat.pos_iff_ne_zero.mp hy), hl]
  set S := buildCols grid W y (buildGrid grid W y) x with hSdef
  have hSlen : S.length = y * W + x := by
    rw [hSdef, buildCols_length, buildGrid_length]
  set L := S ++ [(⟨gval grid y x, x, y, c0 :: cs, none⟩ : SCData)] with hLdef
  have hnode : nodeAt L S.length = ⟨gval grid y x, x, y, c0 :: cs, none⟩ :=
    nodeAt_of_get? (get?_concat_of_length _ _ rfl)
  have hstable : ∀ c ∈ c0 :: cs, nodeAt L c = nodeAt (buildGrid grid W H) c := by
    intro c hc
    have hcy : c < y * W := hcs c (hl ▸ hc)
    refine nodeAt_eq_of_get?_eq ?_
    rw [hLdef, List.get?_append (by rw [hSlen]; omega), hSdef,
        buildCols_get?_lt grid W y _ x (by rw [buildGrid_length]; omega),
        buildGrid_get?_mono grid W hcy (le_of_lt hH)]
  simp only [choose_parent, hnode]
  rw [← hSlen]
  rw [List.get?_set_eq_of_lt _ (by rw [hLdef]; simp)]
  refine congrArg some ?_
  rw [choose_fold_spec L (c0 :: cs) c0]
  simp only [SCData.mk.injEq, and_true, true_and]
  refine ⟨?_, ?_⟩
  · rw [Int.sub_zero]
    refine congrArg (gval grid y x + ·) ?_
    rw [List.foldl_cons, min_self]
    show cs.foldl _ _ = minEnergyOf (buildGrid grid W H) (c0 :: cs)
    unfold minEnergyOf
    rw [hstable c0 (by simp)]
    exact min_fold_congr_nodeAt L (buildGrid grid W H) cs
      (fun c hc => hstable c (by simp [hc])) _
  · show some _ = _
    unfold firstMinId
    refine congrArg some ?_
    exact sel_fold_congr_nodeAt L (buildGrid grid W H) (c0 :: cs) hstable c0
      (hstable c0 (by simp))

theorem buildEnergies_getD (H W r : Nat) (hr : r < H) :
    (buildEnergies H W).getD r [] = (List.range W).map (fun x => r * W + x) := by
  unfold buildEnergies
  rw [List.getD_eq_getD_get?, List.get?_map, List.get?_range hr]
  rfl

theorem buildEnergies_row_len (H W r : Nat) (hr : r < H) :
    ((buildEnergies H W).getD r []).length = W := by
  rw [buildEnergies_getD H W r hr]
  simp

theorem buildEnergies_entry (H W r j : Nat) (hr : r < H) (hj : j < W) :
    ((buildEnergies H W).getD r []).getD j 0 = r * W + j := by
  rw [buildEnergies_getD H W r hr, List.getD_eq_getD_get?, List.get?_map, List.get?_range hj]
  rfl

theorem candIdsAt_build (grid : List (List Int)) {r j : Nat}
    (hr1 : 1 ≤ r) (hrH : r < grid.length) (hj : j < (grid.headD []).length) :
    candIdsAt (asState (calculate_sc_datas grid)) r j
      = mkCellChoices (grid.headD []).length r j := by
  have hrH' : r - 1 < grid.length := by omega
  simp only [candIdsAt, mkCellChoices]
  show (if 0 < j then
        [((buildEnergies grid.length (grid.headD []).length).getD (r-1) []).getD (j-1) 0]
      else [])
      ++ [((buildEnergies grid.length (grid.headD []).length).getD (r-1) []).getD j 0]
      ++ (if j < ((buildEnergies grid.length (grid.headD []).length).getD r []).length - 1
          then [((buildEnergies grid.length (grid.headD []).length).getD (r-1) []).getD (j+1) 0]
          else []) = _
  rw [buildEnergies_row_len _ _ r hrH, buildEnergies_entry _ _ (r-1) j hrH' hj]
  by_cases h1 : j < (grid.headD []).length - 1
  · rw [if_pos h1, if_pos h1, buildEnergies_entry _ _ (r-1) (j+1) hrH' (by omega)]
    by_cases h0 : 0 < j
    · rw [if_pos h0, if_pos h0, buildEnergies_entry _ _ (r-1) (j-1) hrH' (by omega)]
    · rw [if_neg h0, if_neg h0]
  · rw [if_neg h1, if_neg h1]
    by_cases h0 : 0 < j
    · rw [if_pos h0, if_pos h0, buildEnergies_entry _ _ (r-1) (j-1) hrH' (by omega)]
    · rw [if_neg h0, if_neg h0]

/-- C2 (amended): immediately after `build`, every non-root node of the graph
satisfies `cumulativeEnergy = localEnergy + min(candidate energies)`, and the
stored predecessor is the first minimal candidate in left-middle-right order.
(The counterexample theorem shows this is not restored by repair.) -/
theorem C2_invariant_after_build (grid : List (List Int)) {r j : Nat}
    (hr1 : 1 ≤ r) (hrH : r < grid.length) (hj : j < (grid.headD []).length) :
    scInvariantHolds grid (asState (calculate_sc_datas grid)) r j = true := by
  have hid : ((asState (calculate_sc_datas grid)).energies.getD r []).getD j 0
      = r * (grid.headD []).length + j :=
    buildEnergies_entry _ _ r j hrH hj
  have hcell := build_cell_pos grid (grid.headD []).length grid.length
    (show 0 < r by omega) hrH hj
  have hnode := nodeAt_of_get? hcell
  simp only [scInvariantHolds]
  rw [hid]
  show (((nodeAt (buildGrid grid (grid.headD []).length grid.length)
          (r * (grid.headD []).length + j)).energy
        == gval grid (nodeAt (buildGrid grid (grid.headD []).length grid.length)
              (r * (grid.headD []).length + j)).y
            (nodeAt (buildGrid grid (grid.headD []).length grid.length)
              (r * (grid.headD []).length + j)).x
          + minEnergyOf (buildGrid grid (grid.headD []).length grid.length)
              (candIdsAt (asState (calculate_sc_datas grid)) r j))
      && ((nodeAt (buildGrid grid (grid.headD []).length grid.length)
            (r * (grid.headD []).length + j)).parent
          == firstMinId (buildGrid grid (grid.headD []).length grid.length)
              (candIdsAt (asState (calculate_sc_datas grid)) r j))) = true
  rw [hnode, candIdsAt_build grid hr1 hrH hj]
  simp

/-- Witness for the amended C2 on the concrete 2 x 3 grid. -/
theorem C2_invariant_after_build_witness :
    scInvariantHolds gridRepair (asState (calculate_sc_datas gridRepair)) 1 1 = true :=
  C2_invariant_after_build gridRepair (by decide) (by decide) (by decide)

/-! ## Session invariants: immutable coordinates, x-sorted rows, bisect -/

/-- Every row of the grid is sorted strictly ascending by node `x`. -/
def RowsSorted (st : CarveState) : Prop :=
  ∀ row ∈ st.energies,
    row.Pairwise (fun a b => (nodeAt st.store a).x < (nodeAt st.store b).x)

/-- The coordinates of every store object agree with a reference store. -/
def CoordsEq (s0 : List SCData) (st : CarveState) : Prop :=
  ∀ id : Nat, (nodeAt st.store id).x = (nodeAt s0 id).x
    ∧ (nodeAt st.store id).y = (nodeAt s0 id).y

theorem nodeAt_set_preserves (s : List SCData) (id : Nat) (v : SCData)
    (hx : v.x = (nodeAt s id).x) (hy : v.y = (nodeAt s id).y) (j : Nat) :
    (nodeAt (s.set id v) j).x = (nodeAt s j).x
    ∧ (nodeAt (s.set id v) j).y = (nodeAt s j).y := by
  unfold nodeAt
  rw [List.getD_eq_getD_get?, List.getD_eq_getD_get?, List.get?_set]
  by_cases h : id = j
  · subst h
    cases hg : s.get? id with
    | none =>
      unfold nodeAt at hx hy
      rw [List.getD_eq_getD_get?, hg] at hx hy
      simp [hx, hy]
    | some w =>
      unfold nodeAt at hx hy
      rw [List.getD_eq_getD_get?, hg] at hx hy
      simp [hx, hy]
  · rw [if_neg h]
    exact ⟨rfl, rfl⟩

theorem choose_parent_preserves (s : List SCData) (id j : Nat) :
    (nodeAt (choose_parent s id) j).x = (nodeAt s j).x
    ∧ (nodeAt (choose_parent s id) j).y = (nodeAt s j).y := by
  simp only [choose_parent]
  split
  · exact ⟨rfl, rfl⟩
  · apply nodeAt_set_preserves <;> rfl

theorem pairwise_x_congr {s s' : List SCData}
    (h : ∀ id : Nat, (nodeAt s' id).x = (nodeAt s id).x) {row : List Nat}
    (hp : row.Pairwise (fun a b => (nodeAt s a).x < (nodeAt s b).x)) :
    row.Pairwise (fun a b => (nodeAt s' a).x < (nodeAt s' b).x) :=
  hp.imp (fun hab => by rw [h, h]; exact hab)

/-- On a row sorted strictly by `x`, `bisect_left` recovers the positional
index of any node referenced by the row. -/
theorem bisect_left_of_get? (store : List SCData) {row : List Nat}
    (hsort : row.Pairwise (fun a b => (nodeAt store a).x < (nodeAt store b).x)) :
    ∀ {p id : Nat}, row.get? p = some id →
    bisect_left store row (nodeAt store id) = p := by
  unfold bisect_left
  induction row with
  | nil => intro p id h; simp at h
  | cons a rest ih =>
    intro p id h
    rcases List.pairwise_cons.mp hsort with ⟨ha, hrest⟩
    cases p with
    | zero =>
      simp only [List.get?] at h
      injection h with h
      subst h
      rw [List.countP_cons]
      have h1 : rest.countP (fun c => scLt (nodeAt store c) (nodeAt store a)) = 0 := by
        rw [List.countP_eq_zero]
        intro c hc
        simp only [scLt, decide_eq_true_eq]
        have := ha c hc
        omega
      rw [h1]
      simp [scLt]
    | succ q =>
      simp only [List.get?] at h
      rw [List.countP_cons, ih hrest h]
      have hmem : id ∈ rest := List.get?_mem h
      have hlt : (nodeAt store a).x < (nodeAt store id).x := ha id hmem
      simp [scLt, hlt]

theorem set_of_get? {α : Type} : ∀ {l : List α} {i : Nat} {a : α},
    l.get? i = some a → l.set i a = l := by
  intro l
  induction l with
  | nil => intro i a h; simp at h
  | cons b rest ih =>
    intro i a h
    cases i with
    | zero =>
      simp only [List.get?] at h
      injection h with h
      rw [← h]
      rfl
    | succ q =>
      simp only [List.get?] at h
      show b :: rest.set q a = b :: rest
      rw [ih h]

/-- Induction along a successful `foldlM` run in `Except`. -/
theorem foldlM_ok_induct {σ α : Type} (f : σ → α → Except CErr σ) (P : σ → Prop) :
    ∀ (l : List α) (s s' : σ), l.foldlM f s = .ok s' → P s →
    (∀ t a t', a ∈ l → f t a = .ok t' → P t → P t') → P s' := by
  intro l
  induction l with
  | nil =>
    intro s s' h hs _
    simp only [List.foldlM] at h
    cases h
    exact hs
  | cons a rest ih =>
    intro s s' h hs hf
    rw [List.foldlM_cons] at h
    cases hfa : f s a with
    | error e =>
      rw [hfa] at h
      simp only [Bind.bind, Except.bind] at h
      exact Except.noConfusion h
    | ok t =>
      rw [hfa] at h
      simp only [Bind.bind, Except.bind] at h
      exact ih t s' h (hf s a t (by simp) hfa hs)
        (fun t1 b t2 hb hok hP => hf t1 b t2 (by simp [hb]) hok hP)

/-- A successful `repairNode` leaves the grid unchanged (the write-back lands
on the node's own position) and never changes any node's coordinates. -/
theorem repairNode_inv {st st' : CarveState} {ui sc_id : Nat}
    (h : repairNode st ui sc_id = .ok st')
    (hmem : sc_id ∈ st.energies.getD ui [])
    (hsort : RowsSorted st) :
    st'.energies = st.energies
    ∧ (∀ j : Nat, (nodeAt st'.store j).x = (nodeAt st.store j).x
        ∧ (nodeAt st'.store j).y = (nodeAt st.store j).y)
    ∧ st'.out = st.out := by
  simp only [repairNode] at h
  split at h
  case _ row prow hrow hprow =>
    split at h
    case _ middle right hmid hright =>
      have hst' : st' = { st with
          store := choose_parent
            (st.store.set sc_id
              { nodeAt st.store sc_id with
                parent_choices :=
                  (if 0 < bisect_left st.store row (nodeAt st.store sc_id) then
                    [prow.getD (bisect_left st.store row (nodeAt st.store sc_id) - 1) 0]
                   else []) ++ [middle] ++ right }) sc_id,
          energies := st.energies.set ui
            (row.set (bisect_left st.store row (nodeAt st.store sc_id)) sc_id) } :=
        (Except.ok.inj h).symm
      have hrowD : st.energies.getD ui [] = row := by
        rw [List.getD_eq_getD_get?, hrow]
        rfl
      have hmem' : sc_id ∈ row := hrowD ▸ hmem
      obtain ⟨p, hp⟩ := List.mem_iff_get?.mp hmem'
      have hsrow : row.Pairwise
          (fun a b => (nodeAt st.store a).x < (nodeAt st.store b).x) :=
        hsort row (List.get?_mem hrow)
      have hai : bisect_left st.store row (nodeAt st.store sc_id) = p :=
        bisect_left_of_get? st.store hsrow hp
      refine ⟨?_, ?_, by rw [hst']⟩
      · rw [hst']
        show st.energies.set ui
          (row.set (bisect_left st.store row (nodeAt st.store sc_id)) sc_id) = st.energies
        rw [hai, set_of_get? hp, set_of_get? hrow]
      · intro j
        rw [hst']
        have h1 := nodeAt_set_preserves st.store sc_id
          { nodeAt st.store sc_id with
            parent_choices :=
              (if 0 < bisect_left st.store row (nodeAt st.store sc_id) then
                [prow.getD (bisect_left st.store row (nodeAt st.store sc_id) - 1) 0]
               else []) ++ [middle] ++ right } rfl rfl j
        have h2 := choose_parent_preserves
          (st.store.set sc_id
            { nodeAt st.store sc_id with
              parent_choices :=
                (if 0 < bisect_left st.store row (nodeAt st.store sc_id) then
                  [prow.getD (bisect_left st.store row (nodeAt st.store sc_id) - 1) 0]
                 else []) ++ [middle] ++ right }) sc_id j
        exact ⟨h2.1.trans h1.1, h2.2.trans h1.2⟩
    · exact Except.noConfusion h
  · exact Except.noConfusion h

/-- Coordinates agree between two stores. -/
def coordsAgree (s s' : List SCData) : Prop :=
  ∀ j : Nat, (nodeAt s' j).x = (nodeAt s j).x ∧ (nodeAt s' j).y = (nodeAt s j).y

theorem coordsAgree_refl (s : List SCData) : coordsAgree s s := fun _ => ⟨rfl, rfl⟩

theorem coordsAgree_trans {s t u : List SCData}
    (h1 : coordsAgree s t) (h2 : coordsAgree t u) : coordsAgree s u :=
  fun j => ⟨(h2 j).1.trans (h1 j).1, (h2 j).2.trans (h1 j).2⟩

theorem rowsSorted_transfer {st st' : CarveState}
    (he : st'.energies = st.energies) (hc : coordsAgree st.store st'.store)
    (hs : RowsSorted st) : RowsSorted st' := by
  intro row hrow
  rw [he] at hrow
  exact pairwise_x_congr (fun id => (hc id).1) (hs row hrow)

/-- The whole repair window fold leaves the grid unchanged, preserves all
coordinates and keeps rows sorted. -/
theorem repairFold_inv {st st' : CarveState} {ui : Nat} {l : List Nat}
    (hsub : ∀ a ∈ l, a ∈ st.energies.getD ui [])
    (h : l.foldlM (fun s id => repairNode s ui id) st = .ok st')
    (hsort : RowsSorted st) :
    st'.energies = st.energies ∧ coordsAgree st.store st'.store ∧ RowsSorted st'
    ∧ st'.out = st.out := by
  refine foldlM_ok_induct _
    (fun t => t.energies = st.energies ∧ coordsAgree st.store t.store ∧ RowsSorted t
      ∧ t.out = st.out)
    l st st' h ⟨rfl, coordsAgree_refl _, hsort, rfl⟩ ?_
  intro t a t' ha hok hP
  obtain ⟨hPe, hPc, hPs, hPo⟩ := hP
  have hmem : a ∈ t.energies.getD ui [] := by
    rw [hPe]
    exact hsub a ha
  obtain ⟨h1, h2, h3⟩ := repairNode_inv hok hmem hPs
  refine ⟨h1.trans hPe, coordsAgree_trans hPc h2, ?_, h3.trans hPo⟩
  exact rowsSorted_transfer h1 h2 hPs

/-- A successful `removePhase` keeps the store untouched, keeps rows sorted
(deleting an entry preserves sortedness), and in visualize mode does not
touch the grid at all. -/
theorem removePhase_inv {show_carve : Bool} {st st' : CarveState} {eo : Option Nat}
    (h : removePhase show_carve st eo = .ok st')
    (hsort : RowsSorted st) :
    st'.store = st.store ∧ RowsSorted st'
    ∧ (show_carve = true → st'.energies = st.energies)
    ∧ st'.out.map List.length = st.out.map List.length := by
  simp only [removePhase] at h
  split at h
  · cases h
    exact ⟨rfl, hsort, fun _ => rfl, rfl⟩
  case _ elem =>
    split at h
    case _ row orow hrow horow =>
      split at h
      · -- visualize branch
        split at h
        · cases h
          refine ⟨rfl, fun r hr => hsort r hr, fun _ => rfl, ?_⟩
          show (st.out.set (nodeAt st.store elem).y
            (orow.set (nodeAt st.store elem).x [255, 0, 0, 254])).map List.length
            = st.out.map List.length
          rw [List.map_set, List.length_set]
          refine set_of_get? ?_
          rw [List.get?_map, horow]
          rfl
        · exact Except.noConfusion h
      · -- commit branch
        split at h
        · cases h
          refine ⟨rfl, ?_, ?_, ?_⟩
          · intro r hr
            rcases List.mem_or_eq_of_mem_set hr with hr' | hr'
            · exact hsort r hr'
            · rw [hr']
              have hrm : row ∈ st.energies := List.get?_mem hrow
              exact List.Pairwise.sublist (List.eraseIdx_sublist row _) (hsort row hrm)
          · intro hc
            exact absurd hc (by assumption)
          · have hcond : bisect_left st.store row (nodeAt st.store elem) < orow.length
                ∧ bisect_left st.store row (nodeAt st.store elem) < row.length := by
              assumption
            show (st.out.set (nodeAt st.store elem).y
              (orow.eraseIdx (bisect_left st.store row (nodeAt st.store elem))
                ++ [[0, 0, 0, 0]])).map List.length = st.out.map List.length
            rw [List.map_set]
            have hlen : (orow.eraseIdx (bisect_left st.store row (nodeAt st.store elem))
                ++ [[0, 0, 0, 0]]).length = orow.length := by
              rw [List.length_append, List.length_eraseIdx, if_pos hcond.1]
              have h0 : 0 < orow.length := Nat.lt_of_le_of_lt (Nat.zero_le _) hcond.1
              simp
              omega
            rw [hlen]
            refine set_of_get? ?_
            rw [List.get?_map, horow]
            rfl
        · exact Except.noConfusion h
    · exact Except.noConfusion h

theorem repairPhase_inv {st st' : CarveState} {seam : List (Option Nat)} {sindex : Nat}
    (h : repairPhase st seam sindex = .ok st')
    (hsort : RowsSorted st) :
    st'.energies = st.energies ∧ coordsAgree st.store st'.store ∧ RowsSorted st'
    ∧ st'.out = st.out := by
  simp only [repairPhase] at h
  split at h
  · cases h
    exact ⟨rfl, coordsAgree_refl _, hsort, rfl⟩
  · split at h
    case _ update_elem hue =>
      split at h
      case _ urow hurow =>
        refine repairFold_inv ?_ h hsort
        intro a ha
        have h1 : a ∈ urow :=
          List.Sublist.mem (List.mem_of_mem_take ha) (List.drop_sublist _ _)
        rw [List.getD_eq_getD_get?, hurow]
        exact h1
      · exact Except.noConfusion h
    · exact Except.noConfusion h

theorem processSindex_inv {show_carve : Bool} {seam : List (Option Nat)}
    {st st' : CarveState} {p : Nat × Option Nat}
    (h : processSindex show_carve seam st p = .ok st')
    (hsort : RowsSorted st) :
    RowsSorted st' ∧ coordsAgree st.store st'.store
    ∧ (show_carve = true → st'.energies = st.energies)
    ∧ st'.out.map List.length = st.out.map List.length := by
  simp only [processSindex] at h
  split at h
  case _ st1 h1 =>
    obtain ⟨hs1, hsort1, hv1, ho1⟩ := removePhase_inv h1 hsort
    obtain ⟨he2, hc2, hsort2, ho2⟩ := repairPhase_inv h hsort1
    refine ⟨hsort2, ?_, ?_, ?_⟩
    · refine coordsAgree_trans ?_ hc2
      rw [hs1]
      exact coordsAgree_refl _
    · intro hv
      rw [he2, hv1 hv]
    · rw [ho2, ho1]
  · exact Except.noConfusion h

theorem carveStep_inv {show_carve : Bool} {st st' : CarveState} {i : Nat}
    (h : carveStep show_carve st i = .ok st') (hsort : RowsSorted st) :
    RowsSorted st' ∧ coordsAgree st.store st'.store
    ∧ (show_carve = true → st'.energies = st.energies)
    ∧ st'.out.map List.length = st.out.map List.length := by
  simp only [carveStep] at h
  split at h
  · exact Except.noConfusion h
  case _ bottom hb =>
    split at h
    · exact Except.noConfusion h
    case _ msd hmsd =>
      refine foldlM_ok_induct _
        (fun t => RowsSorted t ∧ coordsAgree st.store t.store
          ∧ (show_carve = true → t.energies = st.energies)
          ∧ t.out.map List.length = st.out.map List.length)
        _ st st' h ⟨hsort, coordsAgree_refl _, fun _ => rfl, rfl⟩ ?_
      intro t a t' _ hok hP
      obtain ⟨hPs, hPc, hPv, hPo⟩ := hP
      obtain ⟨h1, h2, h3, h4⟩ := processSindex_inv hok hPs
      refine ⟨h1, coordsAgree_trans hPc h2, ?_, h4.trans hPo⟩
      intro hv
      rw [h3 hv, hPv hv]

theorem runCarves_inv {show_carve : Bool} {st st' : CarveState} {n : Nat}
    (h : runCarves show_carve st n = .ok st') (hsort : RowsSorted st) :
    RowsSorted st' ∧ coordsAgree st.store st'.store
    ∧ (show_carve = true → st'.energies = st.energies)
    ∧ st'.out.map List.length = st.out.map List.length := by
  simp only [runCarves] at h
  refine foldlM_ok_induct _
    (fun t => RowsSorted t ∧ coordsAgree st.store t.store
      ∧ (show_carve = true → t.energies = st.energies)
      ∧ t.out.map List.length = st.out.map List.length)
    _ st st' h ⟨hsort, coordsAgree_refl _, fun _ => rfl, rfl⟩ ?_
  intro t a t' _ hok hP
  obtain ⟨hPs, hPc, hPv, hPo⟩ := hP
  obtain ⟨h1, h2, h3, h4⟩ := carveStep_inv hok hPs
  refine ⟨h1, coordsAgree_trans hPc h2, ?_, h4.trans hPo⟩
  intro hv
  rw [h3 hv, hPv hv]

/-- Coordinates of the freshly built store: the node allocated for cell
`(y, x)` keeps exactly those coordinates. -/
theorem build_coords (grid : List (List Int)) (W H : Nat) {y x : Nat}
    (hy : y < H) (hx : x < W) :
    (nodeAt (buildGrid grid W H) (y * W + x)).x = x
    ∧ (nodeAt (buildGrid grid W H) (y * W + x)).y = y := by
  rcases Nat.eq_zero_or_pos y with h0 | h0
  · subst h0
    have h1 : 0 * W + x = x := by omega
    rw [h1, nodeAt_of_get? (build_cell_row0 grid W H hy hx)]
    exact ⟨rfl, rfl⟩
  · rw [nodeAt_of_get? (build_cell_pos grid W H h0 hy hx)]
    exact ⟨rfl, rfl⟩

theorem initState_rows_sorted (colors : List (List (List Int)))
    (grads : List (List Int)) (se : Bool) :
    RowsSorted (initState colors (calculate_sc_datas grads) se) := by
  intro row hrow
  have hrow' : row ∈ buildEnergies grads.length (grads.headD []).length := hrow
  unfold buildEnergies at hrow'
  obtain ⟨r, hr, hmap⟩ := List.mem_map.mp hrow'
  have hrH : r < grads.length := List.mem_range.mp hr
  rw [← hmap, List.pairwise_map]
  refine List.Pairwise.imp_of_mem ?_ (List.pairwise_lt_range _)
  intro a b ha hb hab
  have hA := build_coords grads (grads.headD []).length grads.length hrH (List.mem_range.mp ha)
  have hB := build_coords grads (grads.headD []).length grads.length hrH (List.mem_range.mp hb)
  show (nodeAt (buildGrid grads (grads.headD []).length grads.length)
      (r * (grads.headD []).length + a)).x
    < (nodeAt (buildGrid grads (grads.headD []).length grads.length)
      (r * (grads.headD []).length + b)).x
  rw [hA.1, hB.1]
  exact hab

/-- C10: throughout a commit-mode carve session every grid row stays sorted
strictly ascending by the node `x` field, which is assigned at construction
and never mutated; node ordering and equality depend only on coordinates,
never on energy; and therefore `bisect_left` applied to a row and a node
currently in that row returns that node's current positional index. -/
theorem C10_sorted_rows_bisect_position (colors : List (List (List Int)))
    (grads : List (List Int)) (n : Nat) (st' : CarveState)
    (hrun : runCarves false (initState colors (calculate_sc_datas grads) false) n
      = .ok st') :
    (∀ row ∈ st'.energies,
        row.Pairwise (fun a b => (nodeAt st'.store a).x < (nodeAt st'.store b).x))
    ∧ (∀ id : Nat, (nodeAt st'.store id).x = (nodeAt (calculate_sc_datas grads).store id).x
        ∧ (nodeAt st'.store id).y = (nodeAt (calculate_sc_datas grads).store id).y)
    ∧ (∀ row ∈ st'.energies, ∀ p id : Nat, row.get? p = some id →
        bisect_left st'.store row (nodeAt st'.store id) = p)
    ∧ (∀ a b : SCData, ∀ e1 e2 : Int,
        scLt { a with energy := e1 } { b with energy := e2 } = scLt a b
        ∧ scEq { a with energy := e1 } { b with energy := e2 } = scEq a b) := by
  obtain ⟨h1, h2, _⟩ := runCarves_inv hrun (initState_rows_sorted colors grads false)
  refine ⟨h1, fun id => h2 id, ?_, ?_⟩
  · intro row hrow p id hp
    exact bisect_left_of_get? st'.store (h1 row hrow) hp
  · intro a b e1 e2
    exact ⟨rfl, rfl⟩

/-- Witness for C10 after one removal on the 2 x 3 grid. -/
theorem C10_sorted_rows_bisect_position_witness :
    (∀ row ∈ exAfterOne.energies,
        row.Pairwise (fun a b => (nodeAt exAfterOne.store a).x < (nodeAt exAfterOne.store b).x))
    ∧ (∀ id : Nat,
        (nodeAt exAfterOne.store id).x = (nodeAt (calculate_sc_datas gridRepair).store id).x
        ∧ (nodeAt exAfterOne.store id).y = (nodeAt (calculate_sc_datas gridRepair).store id).y)
    ∧ (∀ row ∈ exAfterOne.energies, ∀ p id : Nat, row.get? p = some id →
        bisect_left exAfterOne.store row (nodeAt exAfterOne.store id) = p)
    ∧ (∀ a b : SCData, ∀ e1 e2 : Int,
        scLt { a with energy := e1 } { b with energy := e2 } = scLt a b
        ∧ scEq { a with energy := e1 } { b with energy := e2 } = scEq a b) :=
  C10_sorted_rows_bisect_position colorsRepair gridRepair 1 exAfterOne (by decide)

/-- C5 (amended): commit-mode carving performs no column reindexing at all —
every node keeps its construction-time coordinates through any number of
carve iterations; current positions are recovered positionally instead. -/
theorem C5_x_never_mutated (colors : List (List (List Int)))
    (grads : List (List Int)) (n : Nat) (st' : CarveState)
    (hrun : runCarves false (initState colors (calculate_sc_datas grads) false) n
      = .ok st') :
    ∀ id : Nat, (nodeAt st'.store id).x = (nodeAt (calculate_sc_datas grads).store id).x
      ∧ (nodeAt st'.store id).y = (nodeAt (calculate_sc_datas grads).store id).y :=
  fun id => (runCarves_inv hrun (initState_rows_sorted colors grads false)).2.1 id

/-- Witness for the amended C5 on the 2 x 3 grid. -/
theorem C5_x_never_mutated_witness :
    (nodeAt exAfterOne.store 4).x = (nodeAt (calculate_sc_datas gridRepair).store 4).x
    ∧ (nodeAt exAfterOne.store 4).y = (nodeAt (calculate_sc_datas gridRepair).store 4).y :=
  C5_x_never_mutated colorsRepair gridRepair 1 exAfterOne (by decide) 4

theorem buildEnergies_row_mem_len {H W : Nat} {row : List Nat}
    (h : row ∈ buildEnergies H W) : row.length = W := by
  unfold buildEnergies at h
  obtain ⟨r, _, hmap⟩ := List.mem_map.mp h
  rw [← hmap]
  simp

/-- C7 (amended): in visualize-energy mode with `count <= 0` the returned
grid is exactly the raw cumulative-energy image `(e, e, e, 254)` per node;
no `[min_e, max_e] -> [0, 255]` interpolation is applied. -/
theorem C7_raw_energy_grid (colors : List (List (List Int)))
    (grads : List (List Int)) (percent : Rat)
    (hW : (grads.headD []).length = (colors.headD []).length)
    (hc : seamCount percent (colors.headD []).length ≤ 0) :
    vertical_seamcarve colors grads percent false true
      = .ok ((calculate_sc_datas grads).energies.map (fun row => row.map (fun id =>
          [(nodeAt (calculate_sc_datas grads).store id).energy,
           (nodeAt (calculate_sc_datas grads).store id).energy,
           (nodeAt (calculate_sc_datas grads).store id).energy, 254]))) := by
  unfold vertical_seamcarve
  show (match runCarves false (initState colors (calculate_sc_datas grads) true)
      (seamCount percent (colors.headD []).length).toNat with
    | Except.ok st => Except.ok (st.out.map (fun row : List (List Int) =>
        row.take (((colors.headD []).length : Int)
          - seamCount percent (colors.headD []).length).toNat))
    | Except.error err => Except.error err) = _
  rw [Int.toNat_of_nonpos hc]
  show Except.ok (((calculate_sc_datas grads).energies.map (fun row => row.map (fun id =>
      [(nodeAt (calculate_sc_datas grads).store id).energy,
       (nodeAt (calculate_sc_datas grads).store id).energy,
       (nodeAt (calculate_sc_datas grads).store id).energy, 254]))).map
        (fun row : List (List Int) => row.take (((colors.headD []).length : Int)
          - seamCount percent (colors.headD []).length).toNat)) = _
  refine congrArg Except.ok ?_
  have hn : ∀ r ∈ (calculate_sc_datas grads).energies.map
      (fun row : List Nat => row.map (fun id =>
        [(nodeAt (calculate_sc_datas grads).store id).energy,
         (nodeAt (calculate_sc_datas grads).store id).energy,
         (nodeAt (calculate_sc_datas grads).store id).energy, 254])),
      r.length ≤ (((colors.headD []).length : Int)
        - seamCount percent (colors.headD []).length).toNat := by
    intro r hr
    obtain ⟨row, hrow, hmap⟩ := List.mem_map.mp hr
    have hlen : row.length = (grads.headD []).length := buildEnergies_row_mem_len hrow
    rw [← hmap, List.length_map, hlen, hW]
    omega
  calc ((calculate_sc_datas grads).energies.map (fun row : List Nat => row.map (fun id =>
        [(nodeAt (calculate_sc_datas grads).store id).energy,
         (nodeAt (calculate_sc_datas grads).store id).energy,
         (nodeAt (calculate_sc_datas grads).store id).energy, 254]))).map
          (fun row : List (List Int) => row.take (((colors.headD []).length : Int)
            - seamCount percent (colors.headD []).length).toNat)
      = ((calculate_sc_datas grads).energies.map (fun row : List Nat => row.map (fun id =>
          [(nodeAt (calculate_sc_datas grads).store id).energy,
           (nodeAt (calculate_sc_datas grads).store id).energy,
           (nodeAt (calculate_sc_datas grads).store id).energy, 254]))).map id :=
        List.map_congr_left (fun r hr => List.take_of_length_le (hn r hr))
    _ = _ := List.map_id _

/-- Witness for the amended C7 at percent 100 on `[[0, 10]]`. -/
theorem C7_raw_energy_grid_witness :
    vertical_seamcarve colorsRow2 [[0, 10]] 100 false true
      = .ok ((calculate_sc_datas [[0, 10]]).energies.map (fun row => row.map (fun id =>
          [(nodeAt (calculate_sc_datas [[0, 10]]).store id).energy,
           (nodeAt (calculate_sc_datas [[0, 10]]).store id).energy,
           (nodeAt (calculate_sc_datas [[0, 10]]).store id).energy, 254]))) :=
  C7_raw_energy_grid colorsRow2 [[0, 10]] 100 (by decide) (by simp [seamCount_100])

/-! ## C6: shape of extracted seams.

The key invariant: every `parent` reference (also of nodes already deleted
from the grid) points one row up and to a node whose current insertion
position (`bisect_left` in its row) differs from the child's by at most
one.  Seam extraction follows parent links, so extracted seams have one
node per row, root first, with positionally adjacent consecutive entries. -/

/-- Current insertion position of a node in a row. -/
def iposIn (store : List SCData) (row : List Nat) (id : Nat) : Nat :=
  bisect_left store row (nodeAt store id)

/-- Current insertion position of a node in the row of its own `y`. -/
def iposOf (st : CarveState) (id : Nat) : Nat :=
  iposIn st.store (st.energies.getD (nodeAt st.store id).y []) id

/-- The reachable-state invariant for seam extraction. -/
structure GoodState (st : CarveState) : Prop where
  sorted : RowsSorted st
  rowY : ∀ r : Nat, ∀ id ∈ st.energies.getD r [], (nodeAt st.store id).y = r
  rowValid : ∀ r : Nat, ∀ id ∈ st.energies.getD r [], id < st.store.length
  storeY : ∀ id : Nat, id < st.store.length →
    (nodeAt st.store id).y < st.energies.length
  parentRow : ∀ id p : Nat, (nodeAt st.store id).parent = some p →
    (nodeAt st.store p).y + 1 = (nodeAt st.store id).y
  parentValid : ∀ id p : Nat, (nodeAt st.store id).parent = some p → p < st.store.length
  parentSome : ∀ id : Nat, id < st.store.length → 0 < (nodeAt st.store id).y →
    (nodeAt st.store id).parent ≠ none
  parentAdj : ∀ id p : Nat, (nodeAt st.store id).parent = some p →
    iposOf st p ≤ iposOf st id + 1 ∧ iposOf st id ≤ iposOf st p + 1

theorem mem_sortedInsert {store : List SCData} {a b : Nat} :
    ∀ {l : List Nat}, b ∈ sortedInsert store a l ↔ b = a ∨ b ∈ l := by
  intro l
  induction l with
  | nil => simp [sortedInsert]
  | cons c cs ih =>
    unfold sortedInsert
    split
    · simp
    · simp only [List.mem_cons, ih]
      tauto

theorem mem_sortByEnergy {store : List SCData} {b : Nat} :
    ∀ {l : List Nat}, b ∈ sortByEnergy store l ↔ b ∈ l := by
  intro l
  induction l with
  | nil => simp [sortByEnergy]
  | cons a rest ih =>
    unfold sortByEnergy
    rw [mem_sortedInsert]
    simp [ih]

theorem chainUp_last (store : List SCData) :
    ∀ (fuel id : Nat),
    (chainUp store fuel id).get? ((chainUp store fuel id).length - 1) = some id := by
  intro fuel
  induction fuel with
  | zero => intro id; rfl
  | succ m ih =>
    intro id
    unfold chainUp
    split
    · rfl
    case _ p hp =>
      rw [List.length_append]
      simp only [List.length_singleton]
      rw [List.get?_append_right (by omega)]
      simp

theorem chainUp_length_spec (store : List SCData)
    (hpRow : ∀ id p : Nat, (nodeAt store id).parent = some p →
      (nodeAt store p).y + 1 = (nodeAt store id).y)
    (hpValid : ∀ id p : Nat, (nodeAt store id).parent = some p → p < store.length)
    (hpSome : ∀ id : Nat, id < store.length → 0 < (nodeAt store id).y →
      (nodeAt store id).parent ≠ none) :
    ∀ (fuel id : Nat), id < store.length → (nodeAt store id).y ≤ fuel →
    (chainUp store fuel id).length = (nodeAt store id).y + 1 := by
  intro fuel
  induction fuel with
  | zero =>
    intro id _ hy
    simp only [chainUp, List.length_singleton]
    omega
  | succ m ih =>
    intro id hid hy
    unfold chainUp
    split
    case _ hp =>
      simp only [List.length_singleton]
      by_cases h0 : 0 < (nodeAt store id).y
      · exact absurd hp (hpSome id hid h0)
      · omega
    case _ p hp =>
      rw [List.length_append, List.length_singleton,
        ih p (hpValid id p hp) (by have := hpRow id p hp; omega),
        hpRow id p hp]

theorem chainUp_get?_spec (store : List SCData)
    (hpRow : ∀ id p : Nat, (nodeAt store id).parent = some p →
      (nodeAt store p).y + 1 = (nodeAt store id).y)
    (hpValid : ∀ id p : Nat, (nodeAt store id).parent = some p → p < store.length)
    (hpSome : ∀ id : Nat, id < store.length → 0 < (nodeAt store id).y →
      (nodeAt store id).parent ≠ none) :
    ∀ (fuel id : Nat), id < store.length → (nodeAt store id).y ≤ fuel →
    ∀ k c : Nat, (chainUp store fuel id).get? k = some c →
      (nodeAt store c).y = k ∧ c < store.length := by
  intro fuel
  induction fuel with
  | zero =>
    intro id hid hy k c hk
    cases k with
    | zero =>
      simp only [chainUp, List.get?] at hk
      injection hk with hk
      subst hk
      exact ⟨by omega, hid⟩
    | succ q => simp [chainUp] at hk
  | succ m ih =>
    intro id hid hy k c hk
    unfold chainUp at hk
    split at hk
    case _ hp =>
      cases k with
      | zero =>
        simp only [List.get?] at hk
        injection hk with hk
        subst hk
        refine ⟨?_, hid⟩
        by_cases h0 : 0 < (nodeAt store id).y
        · exact absurd hp (hpSome id hid h0)
        · omega
      | succ q => simp at hk
    case _ p hp =>
      have hpv := hpValid id p hp
      have hpy : (nodeAt store p).y + 1 = (nodeAt store id).y := hpRow id p hp
      have hLA : (chainUp store m p).length = (nodeAt store p).y + 1 :=
        chainUp_length_spec store hpRow hpValid hpSome m p hpv (by omega)
      by_cases hcase : k < (chainUp store m p).length
      · rw [List.get?_append hcase] at hk
        exact ih p hpv (by omega) k c hk
      · rw [List.get?_append_right (by omega)] at hk
        have hk0 : k - (chainUp store m p).length = 0 := by
          by_contra hne
          rw [List.get?_eq_none.mpr (by simp; omega)] at hk
          exact Option.noConfusion hk
        rw [hk0] at hk
        simp only [List.get?] at hk
        injection hk with hk
        subst hk
        have : k = (chainUp store m p).length := by omega
        rw [this, hLA, hpy]
        exact ⟨rfl, hid⟩

theorem chainUp_link_spec (store : List SCData)
    (hpRow : ∀ id p : Nat, (nodeAt store id).parent = some p →
      (nodeAt store p).y + 1 = (nodeAt store id).y)
    (hpValid : ∀ id p : Nat, (nodeAt store id).parent = some p → p < store.length)
    (hpSome : ∀ id : Nat, id < store.length → 0 < (nodeAt store id).y →
      (nodeAt store id).parent ≠ none) :
    ∀ (fuel id : Nat), id < store.length → (nodeAt store id).y ≤ fuel →
    ∀ k c c' : Nat, (chainUp store fuel id).get? k = some c →
      (chainUp store fuel id).get? (k + 1) = some c' →
      (nodeAt store c').parent = some c := by
  intro fuel
  induction fuel with
  | zero =>
    intro id _ _ k c c' _ hk1
    simp [chainUp] at hk1
  | succ m ih =>
    intro id hid hy k c c' hk hk1
    unfold chainUp at hk hk1
    cases hp : (nodeAt store id).parent with
    | none =>
      simp only [hp] at hk1
      simp at hk1
    | some p =>
      simp only [hp] at hk hk1
      have hpv := hpValid id p hp
      have hpy : (nodeAt store p).y + 1 = (nodeAt store id).y := hpRow id p hp
      by_cases hcase : k + 1 < (chainUp store m p).length
      · rw [List.get?_append hcase] at hk1
        rw [List.get?_append (by omega)] at hk
        exact ih p hpv (by omega) k c c' hk hk1
      · by_cases hcase2 : k + 1 = (chainUp store m p).length
        · rw [List.get?_append_right (by omega), hcase2] at hk1
          simp only [Nat.sub_self, List.get?] at hk1
          injection hk1 with hk1
          subst hk1
          rw [List.get?_append (by omega)] at hk
          have hlast := chainUp_last store m p
          rw [show (chainUp store m p).length - 1 = k by omega] at hlast
          rw [hlast] at hk
          injection hk with hk
          subst hk
          exact hp
        · rw [List.get?_append_right (by omega)] at hk1
          rw [List.get?_eq_none.mpr (by simp; omega)] at hk1
          exact Option.noConfusion hk1

theorem foldl_pick_mem (e : Nat → Int) :
    ∀ (l : List Nat) (acc : Nat × Int),
    (l.foldl (fun acc c => if e c < acc.2 then (c, e c) else acc) acc).1 = acc.1
    ∨ (l.foldl (fun acc c => if e c < acc.2 then (c, e c) else acc) acc).1 ∈ l := by
  intro l
  induction l with
  | nil => intro acc; exact Or.inl rfl
  | cons a rest ih =>
    intro acc
    rw [List.foldl_cons]
    rcases ih (if e a < acc.2 then (a, e a) else acc) with h | h
    · rw [h]
      by_cases hc : e a < acc.2
      · rw [if_pos hc]
        exact Or.inr (by simp)
      · rw [if_neg hc]
        exact Or.inl rfl
    · exact Or.inr (by simp [h])

theorem nodeAt_set_self {store : List SCData} {id : Nat} (hid : id < store.length)
    (v : SCData) : nodeAt (store.set id v) id = v :=
  nodeAt_of_get? (List.get?_set_eq_of_lt v hid)

/-- `choose_parent` stores one of the given candidates as the parent. -/
theorem choose_parent_parent (store : List SCData) (id : Nat) (hid : id < store.length)
    {c0 : Nat} {cs : List Nat} (hch : (nodeAt store id).parent_choices = c0 :: cs) :
    ∃ ch, ch ∈ c0 :: cs ∧ (nodeAt (choose_parent store id) id).parent = some ch := by
  simp only [choose_parent, hch]
  rw [nodeAt_set_self hid]
  refine ⟨_, ?_, rfl⟩
  rcases foldl_pick_mem (fun c => (nodeAt store c).energy) (c0 :: cs)
    (c0, (nodeAt store c0).energy) with h | h
  · rw [h]
    simp
  · exact h

theorem countP_eraseIdx {α : Type} (p : α → Bool) :
    ∀ (l : List α) (k : Nat) (e : α), l.get? k = some e →
    l.countP p = (l.eraseIdx k).countP p + (if p e then 1 else 0) := by
  intro l
  induction l with
  | nil => intro k e h; simp at h
  | cons a rest ih =>
    intro k e h
    cases k with
    | zero =>
      simp only [List.get?] at h
      injection h with h
      subst h
      show (a :: rest).countP p = rest.countP p + (if p a = true then 1 else 0)
      rw [List.countP_cons]
    | succ q =>
      simp only [List.get?] at h
      show (a :: rest).countP p = (a :: rest.eraseIdx q).countP p + _
      rw [List.countP_cons, List.countP_cons, ih q e h]
      omega

/-- On a sorted row, the entry at index `k` has `x` below a target iff `k` is
below the target's insertion position. -/
theorem sorted_nth_lt_iff (store : List SCData) (t : SCData) :
    ∀ {row : List Nat},
    row.Pairwise (fun a b => (nodeAt store a).x < (nodeAt store b).x) →
    ∀ {k d : Nat}, row.get? k = some d →
    ((nodeAt store d).x < t.x ↔ k < bisect_left store row t) := by
  intro row
  induction row with
  | nil => intro _ k d h; simp at h
  | cons a rest ih =>
    intro hsort k d h
    rcases List.pairwise_cons.mp hsort with ⟨ha, hrest⟩
    unfold bisect_left
    rw [List.countP_cons]
    cases k with
    | zero =>
      simp only [List.get?] at h
      injection h with h
      subst h
      by_cases hsc : scLt (nodeAt store a) t = true
      · have hx : (nodeAt store a).x < t.x := by
          simpa [scLt] using hsc
        have hval : (if scLt (nodeAt store a) t = true then 1 else 0) = 1 := by
          simp [hsc]
        rw [hval]
        constructor
        · intro _; omega
        · intro _; exact hx
      · have hx : ¬ (nodeAt store a).x < t.x := by
          simpa [scLt] using hsc
        have hval : (if scLt (nodeAt store a) t = true then 1 else 0) = 0 := by
          simp [hsc]
        have hz : rest.countP (fun id => scLt (nodeAt store id) t) = 0 := by
          rw [List.countP_eq_zero]
          intro c hc
          simp only [scLt, decide_eq_true_eq]
          have := ha c hc
          omega
        rw [hval, hz]
        constructor
        · intro hcon; exact absurd hcon hx
        · intro hcon; omega
    | succ q =>
      simp only [List.get?] at h
      have hmem : d ∈ rest := List.get?_mem h
      have had : (nodeAt store a).x < (nodeAt store d).x := ha d hmem
      have hihq := ih hrest h
      unfold bisect_left at hihq
      by_cases hsc : scLt (nodeAt store a) t = true
      · have hval : (if scLt (nodeAt store a) t = true then 1 else 0) = 1 := by
          simp [hsc]
        rw [hval]
        constructor
        · intro h1
          have := hihq.mp h1
          omega
        · intro h1
          have h2 : q < rest.countP (fun id => scLt (nodeAt store id) t) := by omega
          exact hihq.mpr h2
      · have hx : ¬ (nodeAt store a).x < t.x := by
          simpa [scLt] using hsc
        have hval : (if scLt (nodeAt store a) t = true then 1 else 0) = 0 := by
          simp [hsc]
        have hz : rest.countP (fun id => scLt (nodeAt store id) t) = 0 := by
          rw [List.countP_eq_zero]
          intro c hc
          simp only [scLt, decide_eq_true_eq]
          have := ha c hc
          omega
        rw [hval, hz]
        constructor
        · intro hcon
          exact absurd (lt_trans had hcon) hx
        · intro hcon; omega

theorem drift_bound (pp pi qp qi : Nat)
    (h1 : pp ≤ pi + 1) (h2 : pi ≤ pp + 1) (h3 : qp ≤ qi + 1) (h4 : qi ≤ qp + 1) :
    (pp - (if qp < pp then 1 else 0)) ≤ (pi - (if qi < pi then 1 else 0)) + 1
    ∧ (pi - (if qi < pi then 1 else 0)) ≤ (pp - (if qp < pp then 1 else 0)) + 1 := by
  by_cases a : qp < pp <;> by_cases b : qi < pi <;> simp [a, b] <;> omega

theorem iposIn_coords_congr {s s' : List SCData} (h : coordsAgree s s')
    (row : List Nat) (id : Nat) : iposIn s' row id = iposIn s row id := by
  unfold iposIn bisect_left
  refine List.countP_congr ?_
  intro c _
  simp [scLt, (h c).1, (h id).1]

theorem getD_of_get? {α : Type} {l : List α} {k : Nat} {v d : α}
    (h : l.get? k = some v) : l.getD k d = v := by
  rw [List.getD_eq_getD_get?, h]
  rfl

theorem get?_of_lt_length {α : Type} {l : List α} {k : Nat} (d : α)
    (h : k < l.length) : l.get? k = some (l.getD k d) := by
  rw [List.get?_eq_get h, List.getD_eq_get _ _ h]

/-- Index of the node that step `k` of the seam loop deletes from row `k`
(the bisect insertion position of the `k`-th seam element, computed in the
pre-iteration state). -/
def dpos (st0 : CarveState) (chain : List Nat) (k : Nat) : Nat :=
  match chain.get? k with
  | some c => iposIn st0.store (st0.energies.getD k []) c
  | none => 0

/-- Row `k` as it stands at the end of the iteration: in visualize mode the
rows never change; in commit mode the seam entry of the row is deleted. -/
def fRow (sc : Bool) (st0 : CarveState) (chain : List Nat) (k : Nat) : List Nat :=
  if sc then st0.energies.getD k []
  else (st0.energies.getD k []).eraseIdx (dpos st0 chain k)

/-- The staged invariant of the `for sindex, elem in enumerate(seam)` loop:
rows strictly below `sindex` have had their seam entry deleted, the rest are
untouched; coordinates are frozen; every parent reference either is still
the pre-iteration one or has been re-assigned by the repair to a node that
is positionally adjacent in the end-of-iteration rows. -/
structure MidInv (sc : Bool) (st0 : CarveState) (chain : List Nat) (sindex : Nat)
    (t : CarveState) : Prop where
  storeLen : t.store.length = st0.store.length
  coords : coordsAgree st0.store t.store
  elen : t.energies.length = st0.energies.length
  rowsDone : ∀ k : Nat, k < sindex → k < st0.energies.length →
    t.energies.get? k = some (fRow sc st0 chain k)
    ∧ (sc = false → dpos st0 chain k < (st0.energies.getD k []).length)
  rowsTodo : ∀ k : Nat, sindex ≤ k → t.energies.get? k = st0.energies.get? k
  pRow : ∀ id p : Nat, (nodeAt t.store id).parent = some p →
    (nodeAt t.store p).y + 1 = (nodeAt t.store id).y
  pValid : ∀ id p : Nat, (nodeAt t.store id).parent = some p → p < t.store.length
  pSome : ∀ id : Nat, id < t.store.length → 0 < (nodeAt t.store id).y →
    (nodeAt t.store id).parent ≠ none
  pDisj : ∀ id : Nat, (nodeAt t.store id).parent = (nodeAt st0.store id).parent
    ∨ (∃ p, (nodeAt t.store id).parent = some p
        ∧ iposIn st0.store (fRow sc st0 chain ((nodeAt st0.store id).y - 1)) p
            ≤ iposIn st0.store (fRow sc st0 chain (nodeAt st0.store id).y) id + 1
        ∧ iposIn st0.store (fRow sc st0 chain (nodeAt st0.store id).y) id
            ≤ iposIn st0.store (fRow sc st0 chain ((nodeAt st0.store id).y - 1)) p + 1)

/-- Any `getD` row of a good state is sorted by `x`. -/
theorem row_sorted_getD {st0 : CarveState} (hG : GoodState st0) (k : Nat) :
    (st0.energies.getD k []).Pairwise
      (fun a b => (nodeAt st0.store a).x < (nodeAt st0.store b).x) := by
  by_cases hk : k < st0.energies.length
  · exact hG.sorted _ (List.get?_mem (get?_of_lt_length [] hk))
  · rw [List.getD_eq_getD_get?, List.get?_eq_none.mpr (by omega)]
    exact List.Pairwise.nil

theorem fRow_sublist (sc : Bool) (st0 : CarveState) (chain : List Nat) (k : Nat) :
    (fRow sc st0 chain k).Sublist (st0.energies.getD k []) := by
  unfold fRow
  split
  · exact List.Sublist.refl _
  · exact List.eraseIdx_sublist _ _

/-- End-of-iteration rows are sorted by `x` (over the frozen coordinates). -/
theorem fRow_sorted {st0 : CarveState} (hG : GoodState st0) (sc : Bool)
    (chain : List Nat) (k : Nat) :
    (fRow sc st0 chain k).Pairwise
      (fun a b => (nodeAt st0.store a).x < (nodeAt st0.store b).x) :=
  List.Pairwise.sublist (fRow_sublist sc st0 chain k) (row_sorted_getD hG k)

theorem MidInv.row_sorted {sc : Bool} {st0 : CarveState} {chain : List Nat}
    {sindex : Nat} {t : CarveState} (hm : MidInv sc st0 chain sindex t)
    (hG : GoodState st0)
    {k : Nat} {row : List Nat} (hrow : t.energies.get? k = some row) :
    row.Pairwise (fun a b => (nodeAt t.store a).x < (nodeAt t.store b).x) := by
  have hx : ∀ l : List Nat,
      l.Pairwise (fun a b => (nodeAt st0.store a).x < (nodeAt st0.store b).x) →
      l.Pairwise (fun a b => (nodeAt t.store a).x < (nodeAt t.store b).x) := by
    intro l hl
    refine hl.imp ?_
    intro a b hab
    rw [(hm.coords a).1, (hm.coords b).1]
    exact hab
  have hsrc : row = fRow sc st0 chain k ∨ st0.energies.get? k = some row := by
    by_cases hk : k < sindex
    · by_cases hk2 : k < st0.energies.length
      · left
        have := (hm.rowsDone k hk hk2).1
        rw [this] at hrow
        exact (Option.some.inj hrow).symm
      · exfalso
        have : t.energies.get? k = none := by
          rw [List.get?_eq_none]
          rw [hm.elen]
          omega
        rw [this] at hrow
        exact Option.noConfusion hrow
    · right
      rw [← hm.rowsTodo k (by omega)]
      exact hrow
  rcases hsrc with hsrc | hsrc
  · refine hx _ ?_
    rw [hsrc]
    exact fRow_sorted hG sc chain k
  · exact hx _ (hG.sorted _ (List.get?_mem hsrc))

/-- The invariant at stage 0 is just the pre-iteration good state. -/
theorem midInv_init (sc : Bool) {st0 : CarveState} (hG : GoodState st0)
    (chain : List Nat) : MidInv sc st0 chain 0 st0 := by
  refine ⟨rfl, coordsAgree_refl _, rfl, ?_, fun _ _ => rfl,
    hG.parentRow, hG.parentValid, hG.parentSome, fun _ => Or.inl rfl⟩
  intro k hk
  omega

/-- Once every real row is handled, the stage counter can be bumped past the
dummy element. -/
theorem midInv_bump {sc : Bool} {st0 : CarveState} {chain : List Nat}
    {sindex : Nat} {t : CarveState} (hs : st0.energies.length ≤ sindex)
    (hm : MidInv sc st0 chain sindex t) : MidInv sc st0 chain (sindex + 1) t := by
  refine ⟨hm.storeLen, hm.coords, hm.elen, ?_, ?_, hm.pRow, hm.pValid, hm.pSome, hm.pDisj⟩
  · intro k _ hk2
    exact hm.rowsDone k (by omega) hk2
  · intro k hk
    exact hm.rowsTodo k (by omega)

theorem foldl_sel_mem (e : Nat → Int) :
    ∀ (l : List Nat) (c0 : Nat),
    l.foldl (fun acc c => if e c < e acc then c else acc) c0 = c0
    ∨ l.foldl (fun acc c => if e c < e acc then c else acc) c0 ∈ l := by
  intro l
  induction l with
  | nil => intro c0; exact Or.inl rfl
  | cons a rest ih =>
    intro c0
    rw [List.foldl_cons]
    rcases ih (if e a < e c0 then a else c0) with h | h
    · rw [h]
      by_cases hc : e a < e c0
      · rw [if_pos hc]
        exact Or.inr (by simp)
      · rw [if_neg hc]
        exact Or.inl rfl
    · exact Or.inr (by simp [h])

theorem mkCellChoices_mem_form {W y x c : Nat} (hx : x < W)
    (hc : c ∈ mkCellChoices W y x) :
    ∃ x' : Nat, c = (y - 1) * W + x' ∧ x' < W ∧ x' ≤ x + 1 ∧ x ≤ x' + 1 := by
  unfold mkCellChoices at hc
  by_cases h0 : 0 < x <;> by_cases h1 : x < W - 1 <;>
    simp [h0, h1] at hc
  · rcases hc with hc | hc | hc
    · exact ⟨x - 1, hc, by omega, by omega, by omega⟩
    · exact ⟨x, hc, by omega, by omega, by omega⟩
    · exact ⟨x + 1, hc, by omega, by omega, by omega⟩
  · rcases hc with hc | hc
    · exact ⟨x - 1, hc, by omega, by omega, by omega⟩
    · exact ⟨x, hc, by omega, by omega, by omega⟩
  · rcases hc with hc | hc
    · exact ⟨x, hc, by omega, by omega, by omega⟩
    · exact ⟨x + 1, hc, by omega, by omega, by omega⟩
  · exact ⟨x, hc, by omega, by omega, by omega⟩

theorem nodeAt_default {store : List SCData} {id : Nat} (h : store.length ≤ id) :
    nodeAt store id = default := by
  unfold nodeAt
  rw [List.getD_eq_getD_get?, List.get?_eq_none.mpr h]
  rfl

theorem buildEnergies_length (H W : Nat) : (buildEnergies H W).length = H := by
  simp [buildEnergies]

theorem build_row_get? (grads : List (List Int)) {r j : Nat}
    (hr : r < grads.length) (hj : j < (grads.headD []).length) :
    ((buildEnergies grads.length (grads.headD []).length).getD r []).get? j
      = some (r * (grads.headD []).length + j) := by
  rw [buildEnergies_getD _ _ r hr, List.get?_map, List.get?_range hj]
  rfl

theorem build_rows_sorted (grads : List (List Int)) :
    ∀ row ∈ buildEnergies grads.length (grads.headD []).length,
    row.Pairwise (fun a b =>
      (nodeAt (buildGrid grads (grads.headD []).length grads.length) a).x
      < (nodeAt (buildGrid grads (grads.headD []).length grads.length) b).x) :=
  initState_rows_sorted [] grads false

theorem build_id_decomp (grads : List (List Int)) :
    ∀ id : Nat, id < (buildGrid grads (grads.headD []).length grads.length).length →
    ∃ y x : Nat, y < grads.length ∧ x < (grads.headD []).length
      ∧ id = y * (grads.headD []).length + x := by
  intro id hid
  have hW : 0 < (grads.headD []).length := by
    rw [buildGrid_length] at hid
    by_contra h0
    have hz : (grads.headD []).length = 0 := by omega
    rw [hz] at hid
    omega
  rw [buildGrid_length] at hid
  refine ⟨id / (grads.headD []).length, id % (grads.headD []).length, ?_, ?_, ?_⟩
  · rw [Nat.div_lt_iff_lt_mul hW]
    exact hid
  · exact Nat.mod_lt _ hW
  · have h1 := Nat.div_add_mod id (grads.headD []).length
    rw [Nat.mul_comm] at h1
    omega

theorem build_ipos (grads : List (List Int)) {y x : Nat}
    (hy : y < grads.length) (hx : x < (grads.headD []).length) :
    iposIn (buildGrid grads (grads.headD []).length grads.length)
      ((buildEnergies grads.length (grads.headD []).length).getD y [])
      (y * (grads.headD []).length + x) = x := by
  have hy' : y < (buildEnergies grads.length (grads.headD []).length).length := by
    rw [buildEnergies_length]; omega
  have hget : (buildEnergies grads.length (grads.headD []).length).get? y
      = some ((buildEnergies grads.length (grads.headD []).length).getD y []) := by
    cases hq : (buildEnergies grads.length (grads.headD []).length).get? y with
    | none => exact absurd (List.get?_eq_none.mp hq) (by omega)
    | some r => rw [getD_of_get? hq]
  exact bisect_left_of_get? _ (build_rows_sorted grads _ (List.get?_mem hget))
    (build_row_get? grads hy hx)

theorem build_parent_form (grads : List (List Int)) :
    ∀ id p : Nat,
    (nodeAt (buildGrid grads (grads.headD []).length grads.length) id).parent = some p →
    ∃ y x x' : Nat, 0 < y ∧ y < grads.length ∧ x < (grads.headD []).length
      ∧ x' < (grads.headD []).length ∧ x' ≤ x + 1 ∧ x ≤ x' + 1
      ∧ id = y * (grads.headD []).length + x
      ∧ p = (y - 1) * (grads.headD []).length + x' := by
  intro id p hp
  by_cases hid : id < (buildGrid grads (grads.headD []).length grads.length).length
  · obtain ⟨y, x, hy, hx, hye⟩ := build_id_decomp grads id hid
    subst hye
    rcases Nat.eq_zero_or_pos y with h0 | h0
    · subst h0
      rw [show (0 : Nat) * (grads.headD []).length + x = x by omega,
        nodeAt_of_get? (build_cell_row0 grads _ _ hy hx)] at hp
      exact Option.noConfusion hp
    · rw [nodeAt_of_get? (build_cell_pos grads _ _ h0 hy hx)] at hp
      obtain ⟨c0, cs, hl⟩ := List.exists_cons_of_ne_nil
        (mkCellChoices_ne_nil (grads.headD []).length y x)
      rw [hl] at hp
      simp only [firstMinId] at hp
      injection hp with hp
      have hpick : p ∈ c0 :: cs := by
        rcases foldl_sel_mem
          (fun c => (nodeAt (buildGrid grads (grads.headD []).length grads.length) c).energy)
          (c0 :: cs) c0 with h | h
        · rw [← hp, h]; simp
        · rw [← hp]; exact h
      rw [← hl] at hpick
      obtain ⟨x', hpe, hx', hn1, hn2⟩ := mkCellChoices_mem_form hx hpick
      exact ⟨y, x, x', h0, hy, hx, hx', hn1, hn2, rfl, hpe⟩
  · rw [nodeAt_default (by omega)] at hp
    exact Option.noConfusion hp

theorem build_cell_lt (grads : List (List Int)) {y x : Nat}
    (hy : y < grads.length) (hx : x < (grads.headD []).length) :
    y * (grads.headD []).length + x
      < (buildGrid grads (grads.headD []).length grads.length).length := by
  rw [buildGrid_length]
  have h1 : y * (grads.headD []).length + x < (y + 1) * (grads.headD []).length := by
    rw [Nat.succ_mul]; omega
  have h2 : (y + 1) * (grads.headD []).length ≤ grads.length * (grads.headD []).length :=
    Nat.mul_le_mul_right _ (by omega)
  omega

/-- The freshly built graph satisfies the extraction invariant. -/
theorem goodState_build (colors : List (List (List Int))) (grads : List (List Int))
    (se : Bool) : GoodState (initState colors (calculate_sc_datas grads) se) := by
  refine ⟨initState_rows_sorted colors grads se, ?_, ?_, ?_, ?_, ?_, ?_, ?_⟩
  · -- rowY
    show ∀ r : Nat, ∀ id ∈ (buildEnergies grads.length (grads.headD []).length).getD r [],
      (nodeAt (buildGrid grads (grads.headD []).length grads.length) id).y = r
    intro r id hid
    by_cases hr : r < grads.length
    · rw [buildEnergies_getD _ _ r hr] at hid
      obtain ⟨j, hj, hje⟩ := List.mem_map.mp hid
      rw [← hje]
      exact (build_coords grads _ _ hr (List.mem_range.mp hj)).2
    · exfalso
      rw [List.getD_eq_getD_get?, List.get?_eq_none.mpr (by rw [buildEnergies_length]; omega)]
        at hid
      simp at hid
  · -- rowValid
    show ∀ r : Nat, ∀ id ∈ (buildEnergies grads.length (grads.headD []).length).getD r [],
      id < (buildGrid grads (grads.headD []).length grads.length).length
    intro r id hid
    by_cases hr : r < grads.length
    · rw [buildEnergies_getD _ _ r hr] at hid
      obtain ⟨j, hj, hje⟩ := List.mem_map.mp hid
      rw [← hje]
      exact build_cell_lt grads hr (List.mem_range.mp hj)
    · exfalso
      rw [List.getD_eq_getD_get?, List.get?_eq_none.mpr (by rw [buildEnergies_length]; omega)]
        at hid
      simp at hid
  · -- storeY
    show ∀ id : Nat, id < (buildGrid grads (grads.headD []).length grads.length).length →
      (nodeAt (buildGrid grads (grads.headD []).length grads.length) id).y
        < (buildEnergies grads.length (grads.headD []).length).length
    intro id hid
    obtain ⟨y, x, hy, hx, hye⟩ := build_id_decomp grads id hid
    subst hye
    rw [(build_coords grads _ _ hy hx).2, buildEnergies_length]
    exact hy
  · -- parentRow
    show ∀ id p : Nat,
      (nodeAt (buildGrid grads (grads.headD []).length grads.length) id).parent = some p →
      (nodeAt (buildGrid grads (grads.headD []).length grads.length) p).y + 1
        = (nodeAt (buildGrid grads (grads.headD []).length grads.length) id).y
    intro id p hp
    obtain ⟨y, x, x', h0, hy, hx, hx', _, _, hide, hpe⟩ := build_parent_form grads id p hp
    subst hide
    subst hpe
    rw [(build_coords grads _ _ (show y - 1 < grads.length by omega) hx').2,
      (build_coords grads _ _ hy hx).2]
    omega
  · -- parentValid
    show ∀ id p : Nat,
      (nodeAt (buildGrid grads (grads.headD []).length grads.length) id).parent = some p →
      p < (buildGrid grads (grads.headD []).length grads.length).length
    intro id p hp
    obtain ⟨y, x, x', h0, hy, hx, hx', _, _, hide, hpe⟩ := build_parent_form grads id p hp
    subst hpe
    exact build_cell_lt grads (show y - 1 < grads.length by omega) hx'
  · -- parentSome
    show ∀ id : Nat, id < (buildGrid grads (grads.headD []).length grads.length).length →
      0 < (nodeAt (buildGrid grads (grads.headD []).length grads.length) id).y →
      (nodeAt (buildGrid grads (grads.headD []).length grads.length) id).parent ≠ none
    intro id hid h0
    obtain ⟨y, x, hy, hx, hye⟩ := build_id_decomp grads id hid
    subst hye
    rcases Nat.eq_zero_or_pos y with hy0 | hy0
    · subst hy0
      rw [show (0 : Nat) * (grads.headD []).length + x = x by omega,
        nodeAt_of_get? (build_cell_row0 grads _ _ hy hx)] at h0
      simp at h0
    · rw [nodeAt_of_get? (build_cell_pos grads _ _ hy0 hy hx)]
      obtain ⟨c0, cs, hl⟩ := List.exists_cons_of_ne_nil
        (mkCellChoices_ne_nil (grads.headD []).length y x)
      rw [hl]
      simp [firstMinId]
  · -- parentAdj
    show ∀ id p : Nat,
      (nodeAt (buildGrid grads (grads.headD []).length grads.length) id).parent = some p →
      iposOf (initState colors (calculate_sc_datas grads) se) p
        ≤ iposOf (initState colors (calculate_sc_datas grads) se) id + 1
      ∧ iposOf (initState colors (calculate_sc_datas grads) se) id
        ≤ iposOf (initState colors (calculate_sc_datas grads) se) p + 1
    intro id p hp
    obtain ⟨y, x, x', h0, hy, hx, hx', hn1, hn2, hide, hpe⟩ := build_parent_form grads id p hp
    subst hide
    subst hpe
    show iposIn (buildGrid grads (grads.headD []).length grads.length)
        ((buildEnergies grads.length (grads.headD []).length).getD
          (nodeAt (buildGrid grads (grads.headD []).length grads.length)
            ((y - 1) * (grads.headD []).length + x')).y [])
        ((y - 1) * (grads.headD []).length + x')
      ≤ iposIn (buildGrid grads (grads.headD []).length grads.length)
        ((buildEnergies grads.length (grads.headD []).length).getD
          (nodeAt (buildGrid grads (grads.headD []).length grads.length)
            (y * (grads.headD []).length + x)).y [])
        (y * (grads.headD []).length + x) + 1
      ∧ iposIn (buildGrid grads (grads.headD []).length grads.length)
        ((buildEnergies grads.length (grads.headD []).length).getD
          (nodeAt (buildGrid grads (grads.headD []).length grads.length)
            (y * (grads.headD []).length + x)).y [])
        (y * (grads.headD []).length + x)
      ≤ iposIn (buildGrid grads (grads.headD []).length grads.length)
        ((buildEnergies grads.length (grads.headD []).length).getD
          (nodeAt (buildGrid grads (grads.headD []).length grads.length)
            ((y - 1) * (grads.headD []).length + x')).y [])
        ((y - 1) * (grads.headD []).length + x') + 1
    rw [(build_coords grads _ _ (show y - 1 < grads.length by omega) hx').2,
      (build_coords grads _ _ hy hx).2,
      build_ipos grads (show y - 1 < grads.length by omega) hx',
      build_ipos grads hy hx]
    omega
/-- One removal step of the seam loop: handling the `sindex`-th seam element
successfully advances the staged invariant by one row. -/
theorem removePhase_step {sc : Bool} {st0 : CarveState} (hG : GoodState st0)
    {chain : List Nat} {sindex : Nat} {t t' : CarveState}
    (hm : MidInv sc st0 chain sindex t)
    {elem : Nat} (hchain : chain.get? sindex = some elem)
    (hey : (nodeAt st0.store elem).y = sindex)
    (hslen : sindex < st0.energies.length)
    (h : removePhase sc t (some elem) = .ok t') :
    MidInv sc st0 chain (sindex + 1) t' := by
  have hty : (nodeAt t.store elem).y = sindex := by
    rw [(hm.coords elem).2, hey]
  simp only [removePhase] at h
  split at h
  case _ row orow hrow horow =>
    rw [hty] at hrow horow
    have hrow0 : st0.energies.get? sindex = some row := by
      rw [← hm.rowsTodo sindex (le_refl _)]
      exact hrow
    have hrowD : st0.energies.getD sindex [] = row := getD_of_get? hrow0
    have hbis : bisect_left t.store row (nodeAt t.store elem)
        = dpos st0 chain sindex := by
      have h1 : bisect_left t.store row (nodeAt t.store elem)
          = iposIn t.store row elem := rfl
      rw [h1, iposIn_coords_congr hm.coords]
      unfold dpos
      rw [hchain, hrowD]
    rw [hty] at h
    cases sc with
    | true =>
      rw [if_pos rfl] at h
      split at h
      case _ hguard =>
        have hst' : t' = { t with
            out := t.out.set sindex (orow.set (nodeAt t.store elem).x [255, 0, 0, 254]) } :=
          (Except.ok.inj h).symm
        refine ⟨?_, ?_, ?_, ?_, ?_, ?_, ?_, ?_, ?_⟩
        · rw [hst']; exact hm.storeLen
        · rw [hst']; exact hm.coords
        · rw [hst']; exact hm.elen
        · intro k hk hk2
          rw [hst']
          show t.energies.get? k = some (fRow true st0 chain k) ∧ _
          by_cases hks : k < sindex
          · exact hm.rowsDone k hks hk2
          · have hke : k = sindex := by omega
            subst hke
            refine ⟨?_, ?_⟩
            · show t.energies.get? k = some (if true then st0.energies.getD k []
                else (st0.energies.getD k []).eraseIdx (dpos st0 chain k))
              rw [if_pos rfl, hrowD]
              exact hrow
            · intro hcon
              exact Bool.noConfusion hcon
        · intro k hk
          rw [hst']
          show t.energies.get? k = st0.energies.get? k
          exact hm.rowsTodo k (by omega)
        · rw [hst']; exact hm.pRow
        · rw [hst']; exact hm.pValid
        · rw [hst']; exact hm.pSome
        · rw [hst']; exact hm.pDisj
      · exact Except.noConfusion h
    | false =>
      rw [if_neg (by simp)] at h
      split at h
      case _ hguard =>
        have hst' : t' = { t with
            out := t.out.set sindex
              (orow.eraseIdx (bisect_left t.store row (nodeAt t.store elem))
                ++ [[0, 0, 0, 0]]),
            energies := t.energies.set sindex
              (row.eraseIdx (bisect_left t.store row (nodeAt t.store elem))) } :=
          (Except.ok.inj h).symm
        have hbound : dpos st0 chain sindex < row.length := by
          rw [← hbis]
          exact hguard.2
        refine ⟨?_, ?_, ?_, ?_, ?_, ?_, ?_, ?_, ?_⟩
        · rw [hst']; exact hm.storeLen
        · rw [hst']; exact hm.coords
        · rw [hst']
          show (t.energies.set sindex _).length = st0.energies.length
          rw [List.length_set]
          exact hm.elen
        · intro k hk hk2
          rw [hst']
          show (t.energies.set sindex
              (row.eraseIdx (bisect_left t.store row (nodeAt t.store elem)))).get? k
            = some (fRow false st0 chain k) ∧ _
          by_cases hks : k < sindex
          · rw [List.get?_set_ne _ _ (by omega)]
            exact hm.rowsDone k hks hk2
          · have hke : k = sindex := by omega
            subst hke
            refine ⟨?_, fun _ => by rw [hrowD]; exact hbound⟩
            rw [List.get?_set_eq_of_lt _ (by rw [hm.elen]; omega), hbis]
            show _ = some (if false then st0.energies.getD k []
              else (st0.energies.getD k []).eraseIdx (dpos st0 chain k))
            rw [if_neg (by simp), hrowD]
        · intro k hk
          rw [hst']
          show (t.energies.set sindex _).get? k = st0.energies.get? k
          rw [List.get?_set_ne _ _ (by omega)]
          exact hm.rowsTodo k (by omega)
        · rw [hst']; exact hm.pRow
        · rw [hst']; exact hm.pValid
        · rw [hst']; exact hm.pSome
        · rw [hst']; exact hm.pDisj
      · exact Except.noConfusion h
  · exact Except.noConfusion h
/-- One repaired node keeps the staged invariant: the write-back is the
identity on the grid, and the freshly chosen parent sits at one of the
positions `a-1`, `a`, `a+1` of the previous end-of-iteration row, where `a`
is the node's own position in its end-of-iteration row. -/
theorem repairNode_step {sc : Bool} {st0 : CarveState} (hG : GoodState st0)
    {chain : List Nat} {sindex : Nat} {t t' : CarveState}
    (hm : MidInv sc st0 chain (sindex + 1) t)
    {ui sc_id a : Nat} (hui1 : 1 ≤ ui) (huis : ui < sindex + 1)
    (ha : (fRow sc st0 chain ui).get? a = some sc_id)
    (h : repairNode t ui sc_id = .ok t') :
    MidInv sc st0 chain (sindex + 1) t' := by
  simp only [repairNode] at h
  split at h
  case _ row prow hrow hprow =>
    have hui_H : ui < st0.energies.length := by
      by_contra hc
      rw [List.get?_eq_none.mpr (by rw [hm.elen]; omega)] at hrow
      exact Option.noConfusion hrow
    have hrowF : row = fRow sc st0 chain ui := by
      have h1 := (hm.rowsDone ui huis hui_H).1
      rw [h1] at hrow
      exact (Option.some.inj hrow).symm
    have hprowF : prow = fRow sc st0 chain (ui - 1) := by
      have h1 := (hm.rowsDone (ui - 1) (by omega) (by omega)).1
      rw [h1] at hprow
      exact (Option.some.inj hprow).symm
    have hmem0 : sc_id ∈ st0.energies.getD ui [] :=
      List.Sublist.mem (List.get?_mem ha) (fRow_sublist sc st0 chain ui)
    have hyid : (nodeAt st0.store sc_id).y = ui := hG.rowY ui sc_id hmem0
    have hvid : sc_id < st0.store.length := hG.rowValid ui sc_id hmem0
    have hvid_t : sc_id < t.store.length := by rw [hm.storeLen]; exact hvid
    have hs_ui := fRow_sorted hG sc chain ui
    have hs_ui1 := fRow_sorted hG sc chain (ui - 1)
    have hai : bisect_left t.store row (nodeAt t.store sc_id) = a := by
      have h1 : bisect_left t.store row (nodeAt t.store sc_id)
          = iposIn t.store row sc_id := rfl
      rw [h1, iposIn_coords_congr hm.coords, hrowF]
      exact bisect_left_of_get? st0.store hs_ui ha
    rw [hai] at h
    split at h
    case _ middle right hmid hright =>
      have hmlt : a < prow.length := by
        by_contra hc
        rw [List.get?_eq_none.mpr (by omega)] at hmid
        exact Option.noConfusion hmid
      have hst' : t' = { t with
          store := choose_parent
            (t.store.set sc_id
              { nodeAt t.store sc_id with
                parent_choices :=
                  (if 0 < a then [prow.getD (a - 1) 0] else [])
                    ++ [middle] ++ right })
            sc_id,
          energies := t.energies.set ui (row.set a sc_id) } :=
        (Except.ok.inj h).symm
      have hrowset : row.set a sc_id = row := by
        rw [hrowF]
        exact set_of_get? ha
      have henergies : t'.energies = t.energies := by
        rw [hst']
        show t.energies.set ui (row.set a sc_id) = t.energies
        rw [hrowset]
        exact set_of_get? hrow
      have hstore2 : t'.store = choose_parent
          (t.store.set sc_id
            { nodeAt t.store sc_id with
              parent_choices :=
                (if 0 < a then [prow.getD (a - 1) 0] else [])
                  ++ [middle] ++ right })
          sc_id := by
        rw [hst']
      have hcoords2 : coordsAgree t.store t'.store := by
        intro j
        rw [hstore2]
        have h1 := nodeAt_set_preserves t.store sc_id
          { nodeAt t.store sc_id with
            parent_choices :=
              (if 0 < a then [prow.getD (a - 1) 0] else [])
                ++ [middle] ++ right } rfl rfl j
        have h2 := choose_parent_preserves
          (t.store.set sc_id
            { nodeAt t.store sc_id with
              parent_choices :=
                (if 0 < a then [prow.getD (a - 1) 0] else [])
                  ++ [middle] ++ right }) sc_id j
        exact ⟨h2.1.trans h1.1, h2.2.trans h1.2⟩
      have hother : ∀ j : Nat, j ≠ sc_id → nodeAt t'.store j = nodeAt t.store j := by
        intro j hj
        rw [hstore2]
        refine nodeAt_eq_of_get?_eq ?_
        rw [choose_parent_get?_ne _ _ _ hj, List.get?_set_ne _ _ (Ne.symm hj)]
      have hchoices_ne : (if 0 < a then [prow.getD (a - 1) 0] else [])
          ++ [middle] ++ right ≠ [] := by
        intro hc
        rcases List.append_eq_nil.mp hc with ⟨hc1, _⟩
        rcases List.append_eq_nil.mp hc1 with ⟨_, hc2⟩
        exact List.noConfusion hc2
      obtain ⟨c0, cs, hcons⟩ := List.exists_cons_of_ne_nil hchoices_ne
      have hch : (nodeAt
          (t.store.set sc_id
            { nodeAt t.store sc_id with
              parent_choices :=
                (if 0 < a then [prow.getD (a - 1) 0] else [])
                  ++ [middle] ++ right })
          sc_id).parent_choices = c0 :: cs := by
        rw [nodeAt_set_self hvid_t]
        exact hcons
      obtain ⟨ch, hchmem, hchpar⟩ := choose_parent_parent _ sc_id
        (by rw [List.length_set]; exact hvid_t) hch
      have hparent' : (nodeAt t'.store sc_id).parent = some ch := by
        rw [hstore2]
        exact hchpar
      rw [← hcons] at hchmem
      -- the chosen parent is a member of the previous row at position a-1, a or a+1
      have hchpos : ∃ q : Nat, prow.get? q = some ch ∧ (q + 1 = a ∨ q = a ∨ q = a + 1) := by
        rcases List.mem_append.mp hchmem with hl | hr
        · rcases List.mem_append.mp hl with hll | hlm
          · -- left candidate
            by_cases h0 : 0 < a
            · rw [if_pos h0] at hll
              have hle : ch = prow.getD (a - 1) 0 := by
                rcases List.mem_singleton.mp hll with h
                exact h
              refine ⟨a - 1, ?_, by omega⟩
              rw [hle]
              exact get?_of_lt_length 0 (by omega)
            · rw [if_neg h0] at hll
              exact absurd hll (List.not_mem_nil ch)
          · have := List.mem_singleton.mp hlm
            subst this
            exact ⟨a, hmid, by omega⟩
        · -- right candidate
          by_cases h1 : a < row.length - 1
          · rw [if_pos h1] at hright
            cases hq : prow.get? (a + 1) with
            | none =>
              rw [hq] at hright
              exact Option.noConfusion hright
            | some rv =>
              rw [hq] at hright
              have hre : right = [rv] := (Option.some.inj hright).symm
              rw [hre] at hr
              have := List.mem_singleton.mp hr
              subst this
              exact ⟨a + 1, hq, by omega⟩
          · rw [if_neg h1] at hright
            have hre : right = [] := (Option.some.inj hright).symm
            rw [hre] at hr
            exact absurd hr (List.not_mem_nil ch)
      obtain ⟨q, hq, hqa⟩ := hchpos
      have hchmem_row : ch ∈ st0.energies.getD (ui - 1) [] := by
        refine List.Sublist.mem ?_ (fRow_sublist sc st0 chain (ui - 1))
        rw [← hprowF]
        exact List.get?_mem hq
      have hchy : (nodeAt st0.store ch).y = ui - 1 := hG.rowY (ui - 1) ch hchmem_row
      have hchv : ch < st0.store.length := hG.rowValid (ui - 1) ch hchmem_row
      have hcoords' : coordsAgree st0.store t'.store :=
        coordsAgree_trans hm.coords hcoords2
      have hipos_ch : iposIn st0.store (fRow sc st0 chain (ui - 1)) ch = q := by
        rw [← hprowF]
        exact bisect_left_of_get? st0.store (by rw [hprowF]; exact hs_ui1) hq
      have hipos_id : iposIn st0.store (fRow sc st0 chain ui) sc_id = a :=
        bisect_left_of_get? st0.store hs_ui ha
      refine ⟨?_, hcoords', ?_, ?_, ?_, ?_, ?_, ?_, ?_⟩
      · rw [hstore2, choose_parent_length, List.length_set]
        exact hm.storeLen
      · rw [henergies]; exact hm.elen
      · intro k hk hk2
        rw [henergies]
        exact hm.rowsDone k hk hk2
      · intro k hk
        rw [henergies]
        exact hm.rowsTodo k hk
      · -- pRow
        intro id p hp
        rw [(hcoords2 p).2, (hcoords2 id).2]
        by_cases hid : id = sc_id
        · rw [hid] at hp ⊢
          rw [hparent'] at hp
          have hpe : ch = p := Option.some.inj hp
          rw [← hpe, (hm.coords ch).2, (hm.coords sc_id).2, hchy, hyid]
          omega
        · rw [hother id hid] at hp
          exact hm.pRow id p hp
      · -- pValid
        intro id p hp
        have hlen' : t'.store.length = t.store.length := by
          rw [hstore2, choose_parent_length, List.length_set]
        rw [hlen']
        by_cases hid : id = sc_id
        · rw [hid, hparent'] at hp
          have hpe : ch = p := Option.some.inj hp
          rw [← hpe, hm.storeLen]
          exact hchv
        · rw [hother id hid] at hp
          exact hm.pValid id p hp
      · -- pSome
        intro id hid h0
        have hlen' : t'.store.length = t.store.length := by
          rw [hstore2, choose_parent_length, List.length_set]
        by_cases hids : id = sc_id
        · rw [hids, hparent']
          exact Option.noConfusion
        · rw [hother id hids]
          refine hm.pSome id (by rw [← hlen']; exact hid) ?_
          rw [← (hcoords2 id).2]
          exact h0
      · -- pDisj
        intro id
        by_cases hid : id = sc_id
        · right
          rw [hid]
          refine ⟨ch, hparent', ?_, ?_⟩
          · rw [hyid, hipos_ch, hipos_id]
            omega
          · rw [hyid, hipos_ch, hipos_id]
            omega
        · rcases hm.pDisj id with h1 | ⟨p, hp, h2, h3⟩
          · left
            rw [hother id hid]
            exact h1
          · right
            refine ⟨p, ?_, h2, h3⟩
            rw [hother id hid]
            exact hp
    · exact Except.noConfusion h
  · exact Except.noConfusion h
/-- The whole repair window preserves the staged invariant: every repaired
node is an entry of the (already final) row `sindex - 1`. -/
theorem repairPhase_step {sc : Bool} {st0 : CarveState} (hG : GoodState st0)
    {chain : List Nat} {sindex : Nat} {t t' : CarveState}
    (hm : MidInv sc st0 chain (sindex + 1) t)
    {seam : List (Option Nat)}
    (h : repairPhase t seam sindex = .ok t') :
    MidInv sc st0 chain (sindex + 1) t' := by
  simp only [repairPhase] at h
  split at h
  · cases h
    exact hm
  case _ hs2 =>
    split at h
    case _ update_elem hue =>
      split at h
      case _ urow hurow =>
        have hui_H : sindex - 1 < st0.energies.length := by
          by_contra hc
          rw [List.get?_eq_none.mpr (by rw [hm.elen]; omega)] at hurow
          exact Option.noConfusion hurow
        have hurowF : urow = fRow sc st0 chain (sindex - 1) := by
          have h1 := (hm.rowsDone (sindex - 1) (by omega) hui_H).1
          rw [h1] at hurow
          exact (Option.some.inj hurow).symm
        refine foldlM_ok_induct _ (MidInv sc st0 chain (sindex + 1)) _ t t' h hm ?_
        intro t1 aid t1' haid hok hP
        have hmem : aid ∈ fRow sc st0 chain (sindex - 1) := by
          rw [← hurowF]
          exact List.Sublist.mem (List.mem_of_mem_take haid) (List.drop_sublist _ _)
        obtain ⟨a, ha⟩ := List.mem_iff_get?.mp hmem
        exact repairNode_step hG hP (by omega) (by omega) ha hok
      · exact Except.noConfusion h
    · exact Except.noConfusion h

/-- One full `enumerate(seam)` step: a real seam element advances the stage
by one row, the terminal dummy only runs the last repair window. -/
theorem processSindex_step {sc : Bool} {st0 : CarveState} (hG : GoodState st0)
    {chain : List Nat} {sindex : Nat} {t t' : CarveState}
    {seam : List (Option Nat)}
    (hm : MidInv sc st0 chain sindex t)
    {eo : Option Nat}
    (helem : (sindex < st0.energies.length → ∃ elem, eo = some elem
        ∧ chain.get? sindex = some elem ∧ (nodeAt st0.store elem).y = sindex)
      ∧ (st0.energies.length ≤ sindex → eo = none))
    (h : processSindex sc seam t (sindex, eo) = .ok t') :
    MidInv sc st0 chain (sindex + 1) t' := by
  simp only [processSindex] at h
  split at h
  case _ st1 h1 =>
    by_cases hcase : sindex < st0.energies.length
    · obtain ⟨elem, heo, hch, hey⟩ := helem.1 hcase
      rw [heo] at h1
      have hm1 := removePhase_step hG hm hch hey hcase h1
      exact repairPhase_step hG hm1 h
    · have heo := helem.2 (by omega)
      rw [heo] at h1
      have ht1 : st1 = t := by
        simp only [removePhase] at h1
        exact (Except.ok.inj h1).symm
      subst ht1
      have hm1 := midInv_bump (by omega) hm
      exact repairPhase_step hG hm1 h
  · exact Except.noConfusion h
theorem dpos_of_get? {st0 : CarveState} {chain : List Nat} {k c : Nat}
    (h : chain.get? k = some c) :
    dpos st0 chain k = iposIn st0.store (st0.energies.getD k []) c := by
  unfold dpos
  rw [h]

/-- Deleting the entry at position `q` of a sorted row shifts every strictly
larger insertion position down by one and keeps the rest. -/
theorem iposIn_eraseIdx (store : List SCData) {row : List Nat}
    (hsort : row.Pairwise (fun a b => (nodeAt store a).x < (nodeAt store b).x))
    {q : Nat} (hq : q < row.length) (tid : Nat) :
    iposIn store (row.eraseIdx q) tid
      = iposIn store row tid - (if q < iposIn store row tid then 1 else 0) := by
  have he : row.get? q = some (row.getD q 0) := get?_of_lt_length 0 hq
  have hcnt := countP_eraseIdx
    (fun c => scLt (nodeAt store c) (nodeAt store tid)) row q _ he
  have hiff := sorted_nth_lt_iff store (nodeAt store tid) hsort he
  show bisect_left store (row.eraseIdx q) (nodeAt store tid)
    = bisect_left store row (nodeAt store tid)
      - (if q < bisect_left store row (nodeAt store tid) then 1 else 0)
  unfold bisect_left at hcnt hiff ⊢
  simp only [] at hcnt
  by_cases hx : (nodeAt store (row.getD q 0)).x < (nodeAt store tid).x
  · have hb : scLt (nodeAt store (row.getD q 0)) (nodeAt store tid) = true := by
      unfold scLt
      exact decide_eq_true hx
    have hone : (if scLt (nodeAt store (row.getD q 0)) (nodeAt store tid) = true
        then (1 : Nat) else 0) = 1 := by
      split
      · rfl
      case _ hcond => exact absurd hb hcond
    rw [hone] at hcnt
    have hgoal : (if q < List.countP
        (fun id => scLt (nodeAt store id) (nodeAt store tid)) row
        then (1 : Nat) else 0) = 1 := if_pos (hiff.mp hx)
    simp only [hgoal]
    omega
  · have hb : scLt (nodeAt store (row.getD q 0)) (nodeAt store tid) = false := by
      unfold scLt
      exact decide_eq_false hx
    have hzero : (if scLt (nodeAt store (row.getD q 0)) (nodeAt store tid) = true
        then (1 : Nat) else 0) = 0 := by
      split
      case _ hcond => exact absurd (hb.symm.trans hcond) Bool.false_ne_true
      · rfl
    rw [hzero] at hcnt
    have hgoal : (if q < List.countP
        (fun id => scLt (nodeAt store id) (nodeAt store tid)) row
        then (1 : Nat) else 0) = 0 := if_neg (fun hc => hx (hiff.mpr hc))
    simp only [hgoal]
    omega

/-- The deletion positions of consecutive seam rows are adjacent: they are
the insertion positions of a parent-linked pair in the pre-iteration
state. -/
theorem dpos_adjacent {st0 : CarveState} (hG : GoodState st0) {chain : List Nat}
    (hclen : chain.length = st0.energies.length)
    (hcget : ∀ k c : Nat, chain.get? k = some c →
      (nodeAt st0.store c).y = k ∧ c < st0.store.length)
    (hclink : ∀ k c c' : Nat, chain.get? k = some c → chain.get? (k + 1) = some c' →
      (nodeAt st0.store c').parent = some c)
    {k : Nat} (h1 : 1 ≤ k) (h2 : k < st0.energies.length) :
    dpos st0 chain (k - 1) ≤ dpos st0 chain k + 1
    ∧ dpos st0 chain k ≤ dpos st0 chain (k - 1) + 1 := by
  cases hq1 : chain.get? (k - 1) with
  | none =>
    exfalso
    have := List.get?_eq_none.mp hq1
    omega
  | some c1 =>
    cases hq2 : chain.get? k with
    | none =>
      exfalso
      have := List.get?_eq_none.mp hq2
      omega
    | some c2 =>
      have hlink := hclink (k - 1) c1 c2 hq1 (by rw [show k - 1 + 1 = k by omega]; exact hq2)
      have hadj := hG.parentAdj c2 c1 hlink
      have hy1 : (nodeAt st0.store c1).y = k - 1 := (hcget _ _ hq1).1
      have hy2 : (nodeAt st0.store c2).y = k := (hcget _ _ hq2).1
      unfold iposOf at hadj
      rw [hy1, hy2] at hadj
      rw [dpos_of_get? hq1, dpos_of_get? hq2]
      exact hadj

/-- After the last stage of the seam loop, the state is good again. -/
theorem midInv_final_good {sc : Bool} {st0 : CarveState} (hG : GoodState st0)
    {chain : List Nat} {T : CarveState}
    (hclen : chain.length = st0.energies.length)
    (hcget : ∀ k c : Nat, chain.get? k = some c →
      (nodeAt st0.store c).y = k ∧ c < st0.store.length)
    (hclink : ∀ k c c' : Nat, chain.get? k = some c → chain.get? (k + 1) = some c' →
      (nodeAt st0.store c').parent = some c)
    (hm : MidInv sc st0 chain (st0.energies.length + 1) T) :
    GoodState T := by
  have hrowT : ∀ k : Nat, k < st0.energies.length →
      T.energies.get? k = some (fRow sc st0 chain k) :=
    fun k hk => (hm.rowsDone k (by omega) hk).1
  have hgetDT : ∀ k : Nat, k < st0.energies.length →
      T.energies.getD k [] = fRow sc st0 chain k :=
    fun k hk => getD_of_get? (hrowT k hk)
  have hsubD : ∀ k id : Nat, id ∈ T.energies.getD k [] →
      k < st0.energies.length ∧ id ∈ st0.energies.getD k [] := by
    intro k id hid
    by_cases hk : k < st0.energies.length
    · refine ⟨hk, ?_⟩
      rw [hgetDT k hk] at hid
      exact List.Sublist.mem hid (fRow_sublist sc st0 chain k)
    · exfalso
      rw [List.getD_eq_getD_get?, List.get?_eq_none.mpr (by rw [hm.elen]; omega)] at hid
      exact List.not_mem_nil id hid
  refine ⟨?_, ?_, ?_, ?_, hm.pRow, hm.pValid, hm.pSome, ?_⟩
  · -- sorted
    intro row hrow
    obtain ⟨k, hk⟩ := List.mem_iff_get?.mp hrow
    exact hm.row_sorted hG hk
  · -- rowY
    intro r id hid
    obtain ⟨hr, hid0⟩ := hsubD r id hid
    rw [(hm.coords id).2]
    exact hG.rowY r id hid0
  · -- rowValid
    intro r id hid
    obtain ⟨hr, hid0⟩ := hsubD r id hid
    rw [hm.storeLen]
    exact hG.rowValid r id hid0
  · -- storeY
    intro id hid
    rw [(hm.coords id).2, hm.elen]
    exact hG.storeY id (by rw [← hm.storeLen]; exact hid)
  · -- parentAdj
    intro id p hp
    by_cases hidlen : id < T.store.length
    case neg =>
      rw [nodeAt_default (by omega)] at hp
      exact Option.noConfusion hp
    have hidlen0 : id < st0.store.length := by rw [← hm.storeLen]; exact hidlen
    have hYlt : (nodeAt st0.store id).y < st0.energies.length := hG.storeY id hidlen0
    have hpy : (nodeAt T.store p).y + 1 = (nodeAt T.store id).y := hm.pRow id p hp
    have hpy0 : (nodeAt st0.store p).y + 1 = (nodeAt st0.store id).y := by
      rw [← (hm.coords p).2, ← (hm.coords id).2]
      exact hpy
    have hY1 : 1 ≤ (nodeAt st0.store id).y := by omega
    have hipid : iposOf T id
        = iposIn st0.store (fRow sc st0 chain (nodeAt st0.store id).y) id := by
      unfold iposOf
      rw [(hm.coords id).2, hgetDT _ hYlt, iposIn_coords_congr hm.coords]
    have hipp : iposOf T p
        = iposIn st0.store (fRow sc st0 chain ((nodeAt st0.store id).y - 1)) p := by
      unfold iposOf
      rw [(hm.coords p).2, show (nodeAt st0.store p).y = (nodeAt st0.store id).y - 1
          from by omega,
        hgetDT _ (by omega), iposIn_coords_congr hm.coords]
    rw [hipid, hipp]
    rcases hm.pDisj id with h1 | ⟨p', hp', h2, h3⟩
    · -- the parent is still the pre-iteration one
      rw [h1] at hp
      have hadj0 := hG.parentAdj id p hp
      unfold iposOf at hadj0
      rw [show (nodeAt st0.store p).y = (nodeAt st0.store id).y - 1 from by omega]
        at hadj0
      cases sc with
      | true =>
        have hfr : ∀ k : Nat, fRow true st0 chain k = st0.energies.getD k [] := by
          intro k
          unfold fRow
          rw [if_pos rfl]
        rw [hfr, hfr]
        exact hadj0
      | false =>
        have hfr : ∀ k : Nat, fRow false st0 chain k
            = (st0.energies.getD k []).eraseIdx (dpos st0 chain k) := by
          intro k
          unfold fRow
          rw [if_neg (by simp)]
        have hb1 : dpos st0 chain (nodeAt st0.store id).y
            < (st0.energies.getD (nodeAt st0.store id).y []).length :=
          (hm.rowsDone _ (by omega) hYlt).2 rfl
        have hb2 : dpos st0 chain ((nodeAt st0.store id).y - 1)
            < (st0.energies.getD ((nodeAt st0.store id).y - 1) []).length :=
          (hm.rowsDone _ (by omega) (by omega)).2 rfl
        rw [hfr, hfr,
          iposIn_eraseIdx st0.store (row_sorted_getD hG _) hb1 id,
          iposIn_eraseIdx st0.store (row_sorted_getD hG _) hb2 p]
        have hd := dpos_adjacent hG hclen hcget hclink hY1 hYlt
        exact drift_bound _ _ _ _ hadj0.1 hadj0.2 hd.1 hd.2
    · -- the parent was re-chosen by the repair and is final-adjacent already
      rw [hp'] at hp
      have hpe : p' = p := Option.some.inj hp
      rw [← hpe]
      exact ⟨h2, h3⟩

/-- Induction along a successful `foldlM` over an enumerated list. -/
theorem foldlM_enumFrom_induct {σ α : Type} (f : σ → Nat × α → Except CErr σ)
    (P : Nat → σ → Prop) :
    ∀ (l : List α) (n : Nat) (s s' : σ),
    (∀ j x t t', l.get? (j - n) = some x → n ≤ j →
       P j t → f t (j, x) = .ok t' → P (j + 1) t') →
    P n s → (l.enumFrom n).foldlM f s = .ok s' → P (n + l.length) s' := by
  intro l
  induction l with
  | nil =>
    intro n s s' _ hs h
    simp only [List.enumFrom, List.foldlM] at h
    cases h
    simpa using hs
  | cons a rest ih =>
    intro n s s' hf hs h
    simp only [List.enumFrom, List.foldlM_cons] at h
    cases hfa : f s (n, a) with
    | error e =>
      rw [hfa] at h
      simp only [Bind.bind, Except.bind] at h
      exact Except.noConfusion h
    | ok t =>
      rw [hfa] at h
      simp only [Bind.bind, Except.bind] at h
      have hstep := hf n a s t (by simp) (le_refl n) hs hfa
      have htail := ih (n + 1) t s' ?_ hstep h
      · show P (n + (a :: rest).length) s'
        rw [List.length_cons, show n + (rest.length + 1) = n + 1 + rest.length by omega]
        exact htail
      · intro j x t1 t1' hg hj hP hok
        refine hf j x t1 t1' ?_ (by omega) hP hok
        rw [show j - n = (j - (n + 1)) + 1 by omega]
        exact hg

/-- One carve iteration preserves the extraction invariant and both sizes. -/
theorem carveStep_good {sc : Bool} {st0 st' : CarveState} {i : Nat}
    (hG : GoodState st0)
    (hsize : st0.energies.length ≤ st0.store.length ∨ st0.store.length = 0)
    (h : carveStep sc st0 i = .ok st') :
    GoodState st' ∧ st'.store.length = st0.store.length
      ∧ st'.energies.length = st0.energies.length := by
  simp only [carveStep] at h
  split at h
  · exact Except.noConfusion h
  case _ bottom hbot =>
    split at h
    · exact Except.noConfusion h
    case _ msd hmsd =>
      have hH : 0 < st0.energies.length := by
        by_contra hc
        have hnil : st0.energies = [] := List.length_eq_zero.mp (by omega)
        rw [hnil] at hbot
        exact Option.noConfusion hbot
      have hbot' : st0.energies.get? (st0.energies.length - 1) = some bottom := by
        rw [← List.getLast?_eq_get? st0.energies]
        exact hbot
      have hmem_row : msd ∈ st0.energies.getD (st0.energies.length - 1) [] := by
        rw [getD_of_get? hbot']
        exact mem_sortByEnergy.mp (List.get?_mem hmsd)
      have hmy : (nodeAt st0.store msd).y = st0.energies.length - 1 :=
        hG.rowY _ msd hmem_row
      have hmv : msd < st0.store.length := hG.rowValid _ msd hmem_row
      have hfuel : (nodeAt st0.store msd).y ≤ st0.store.length := by
        rw [hmy]
        rcases hsize with hs | hs <;> omega
      have hclen : (chainUp st0.store st0.store.length msd).length
          = st0.energies.length := by
        rw [chainUp_length_spec st0.store hG.parentRow hG.parentValid hG.parentSome
          _ msd hmv hfuel, hmy]
        omega
      have hcget := chainUp_get?_spec st0.store hG.parentRow hG.parentValid
        hG.parentSome _ msd hmv hfuel
      have hclink := chainUp_link_spec st0.store hG.parentRow hG.parentValid
        hG.parentSome _ msd hmv hfuel
      have hcget' : ∀ k c : Nat,
          (chainUp st0.store st0.store.length msd).get? k = some c →
          (nodeAt st0.store c).y = k ∧ c < st0.store.length :=
        fun k c hk => hcget k c hk
      have hseamlen : ((chainUp st0.store st0.store.length msd).map some
          ++ [none]).length = st0.energies.length + 1 := by
        rw [List.length_append, List.length_map, hclen]
        rfl
      have hfin : MidInv sc st0 (chainUp st0.store st0.store.length msd)
          (0 + ((chainUp st0.store st0.store.length msd).map some ++ [none]).length)
          st' := by
        refine foldlM_enumFrom_induct _ _ _ 0 st0 st' ?_
          (midInv_init sc hG _) h
        intro j x t t' hg hj hP hok
        rw [Nat.sub_zero] at hg
        refine processSindex_step hG hP ⟨?_, ?_⟩ hok
        · intro hjH
          cases hcq : (chainUp st0.store st0.store.length msd).get? j with
          | none =>
            exfalso
            have := List.get?_eq_none.mp hcq
            omega
          | some c =>
            have hsg : ((chainUp st0.store st0.store.length msd).map some
                ++ [none]).get? j = some (some c) := by
              rw [List.get?_append (by rw [List.length_map]; omega), List.get?_map, hcq]
              rfl
            rw [hg] at hsg
            exact ⟨c, Option.some.inj hsg, rfl, (hcget' j c hcq).1⟩
        · intro hjH
          have hjlt : j < ((chainUp st0.store st0.store.length msd).map some
              ++ [none]).length := by
            by_contra hc
            rw [List.get?_eq_none.mpr (by omega)] at hg
            exact Option.noConfusion hg
          have hje : j = st0.energies.length := by
            rw [hseamlen] at hjlt
            omega
          have hsg : ((chainUp st0.store st0.store.length msd).map some
              ++ [none]).get? j = some none := by
            rw [List.get?_append_right (by rw [List.length_map]; omega)]
            rw [List.length_map, hclen, hje]
            rw [Nat.sub_self]
            rfl
          rw [hg] at hsg
          exact Option.some.inj hsg
      rw [hseamlen, Nat.zero_add] at hfin
      refine ⟨midInv_final_good hG hclen hcget' (fun k c c' => hclink k c c') hfin,
        hfin.storeLen, hfin.elen⟩
/-- The extraction invariant is preserved over the whole carve loop, along
with both container sizes. -/
theorem runCarves_good {sc : Bool} {st0 st' : CarveState} {n : Nat}
    (hG : GoodState st0)
    (hsize : st0.energies.length ≤ st0.store.length ∨ st0.store.length = 0)
    (h : runCarves sc st0 n = .ok st') :
    GoodState st' ∧ st'.store.length = st0.store.length
      ∧ st'.energies.length = st0.energies.length := by
  simp only [runCarves] at h
  refine foldlM_ok_induct _
    (fun t => GoodState t ∧ t.store.length = st0.store.length
      ∧ t.energies.length = st0.energies.length)
    _ st0 st' h ⟨hG, rfl, rfl⟩ ?_
  intro t a t' _ hok hP
  obtain ⟨hPg, hPl, hPe⟩ := hP
  obtain ⟨h1, h2, h3⟩ := carveStep_good hPg
    (by rcases hsize with hs | hs
        · left; omega
        · right; omega) hok
  exact ⟨h1, h2.trans hPl, h3.trans hPe⟩

/-- The initial state's grid never has more rows than store objects, unless
the store is empty. -/
theorem initState_size (colors : List (List (List Int))) (grads : List (List Int))
    (se : Bool) :
    (initState colors (calculate_sc_datas grads) se).energies.length
      ≤ (initState colors (calculate_sc_datas grads) se).store.length
    ∨ (initState colors (calculate_sc_datas grads) se).store.length = 0 := by
  show (buildEnergies grads.length (grads.headD []).length).length
      ≤ (buildGrid grads (grads.headD []).length grads.length).length
    ∨ (buildGrid grads (grads.headD []).length grads.length).length = 0
  rw [buildEnergies_length, buildGrid_length]
  rcases Nat.eq_zero_or_pos (grads.headD []).length with h0 | h0
  · right
    rw [h0]
    exact Nat.mul_zero _
  · left
    exact Nat.le_mul_of_pos_right grads.length h0
/-- C6: every seam the carve loop extracts — the backtrace from the chosen
bottom-row start through the `parent` links (lines 132-141) — has exactly
one entry per row of the cost grid, ordered root (row 0) first, and the
current positional indices (bisect insertion positions) of consecutive
entries differ by at most 1.  Proved on every state reachable by the carve
loop from a freshly built graph, in commit and visualize mode alike. -/
theorem C6_seam_one_per_row_adjacent (colors : List (List (List Int)))
    (grads : List (List Int)) (show_carve show_energy : Bool) (n i : Nat)
    {st' : CarveState}
    (hrun : runCarves show_carve
      (initState colors (calculate_sc_datas grads) show_energy) n = .ok st')
    {bottom : List Nat} (hb : st'.energies.getLast? = some bottom)
    {m : Nat} (hm : (sortByEnergy st'.store bottom).get? i = some m) :
    (chainUp st'.store st'.store.length m).length = st'.energies.length
    ∧ (∀ k c : Nat, (chainUp st'.store st'.store.length m).get? k = some c →
        (nodeAt st'.store c).y = k)
    ∧ (∀ k c c' : Nat, (chainUp st'.store st'.store.length m).get? k = some c →
        (chainUp st'.store st'.store.length m).get? (k + 1) = some c' →
        iposOf st' c ≤ iposOf st' c' + 1 ∧ iposOf st' c' ≤ iposOf st' c + 1) := by
  obtain ⟨hG, hslen, helen⟩ := runCarves_good (goodState_build colors grads show_energy)
    (initState_size colors grads show_energy) hrun
  have hH : 0 < st'.energies.length := by
    by_contra hc
    have hnil : st'.energies = [] := List.length_eq_zero.mp (by omega)
    rw [hnil] at hb
    exact Option.noConfusion hb
  have hb' : st'.energies.get? (st'.energies.length - 1) = some bottom := by
    rw [← List.getLast?_eq_get? st'.energies]
    exact hb
  have hmem_row : m ∈ st'.energies.getD (st'.energies.length - 1) [] := by
    rw [getD_of_get? hb']
    exact mem_sortByEnergy.mp (List.get?_mem hm)
  have hmy : (nodeAt st'.store m).y = st'.energies.length - 1 :=
    hG.rowY _ m hmem_row
  have hmv : m < st'.store.length := hG.rowValid _ m hmem_row
  have hfuel : (nodeAt st'.store m).y ≤ st'.store.length := by
    rcases initState_size colors grads show_energy with hs | hs <;>
      (rw [hmy]; omega)
  refine ⟨?_, ?_, ?_⟩
  · rw [chainUp_length_spec st'.store hG.parentRow hG.parentValid hG.parentSome
      _ m hmv hfuel, hmy]
    omega
  · intro k c hk
    exact (chainUp_get?_spec st'.store hG.parentRow hG.parentValid hG.parentSome
      _ m hmv hfuel k c hk).1
  · intro k c c' hk hk1
    exact hG.parentAdj c' c
      (chainUp_link_spec st'.store hG.parentRow hG.parentValid hG.parentSome
        _ m hmv hfuel k c c' hk hk1)

/-- Witness for C6 at the freshly built 2x3 example graph: the extracted
seam from bottom-row start 3 is the chain [1, 3], one node per row with
adjacent positions. -/
theorem C6_seam_one_per_row_adjacent_witness :
    (chainUp (initState colorsRepair (calculate_sc_datas gridRepair) false).store
        (initState colorsRepair (calculate_sc_datas gridRepair) false).store.length
        3).length
      = (initState colorsRepair (calculate_sc_datas gridRepair) false).energies.length
    ∧ (∀ k c : Nat,
        (chainUp (initState colorsRepair (calculate_sc_datas gridRepair) false).store
          (initState colorsRepair (calculate_sc_datas gridRepair) false).store.length
          3).get? k = some c →
        (nodeAt (initState colorsRepair (calculate_sc_datas gridRepair) false).store c).y
          = k)
    ∧ (∀ k c c' : Nat,
        (chainUp (initState colorsRepair (calculate_sc_datas gridRepair) false).store
          (initState colorsRepair (calculate_sc_datas gridRepair) false).store.length
          3).get? k = some c →
        (chainUp (initState colorsRepair (calculate_sc_datas gridRepair) false).store
          (initState colorsRepair (calculate_sc_datas gridRepair) false).store.length
          3).get? (k + 1) = some c' →
        iposOf (initState colorsRepair (calculate_sc_datas gridRepair) false) c
          ≤ iposOf (initState colorsRepair (calculate_sc_datas gridRepair) false) c' + 1
        ∧ iposOf (initState colorsRepair (calculate_sc_datas gridRepair) false) c'
          ≤ iposOf (initState colorsRepair (calculate_sc_datas gridRepair) false) c + 1) :=
  @C6_seam_one_per_row_adjacent colorsRepair gridRepair false false 0 0
    (initState colorsRepair (calculate_sc_datas gridRepair) false) rfl
    [3, 4, 5] (by decide) 3 (by decide)
/-! ## Pixel-level behaviour of visualize-path mode (C8) -/

/-- Pixel at row `r`, column `c` of an output buffer. -/
def pixelAt (out : List (List (List Int))) (r c : Nat) : List Int :=
  (out.getD r []).getD c []

theorem getD_set_ne {α : Type} {l : List α} {i j : Nat} (v : α) {d : α} (h : i ≠ j) :
    (l.set i v).getD j d = l.getD j d := by
  rw [List.getD_eq_getD_get?, List.getD_eq_getD_get?, List.get?_set_ne _ _ h]

theorem getD_set_eq_of_lt {α : Type} {l : List α} {i : Nat} (v : α) {d : α}
    (h : i < l.length) : (l.set i v).getD i d = v := by
  rw [List.getD_eq_getD_get?, List.get?_set_eq_of_lt _ h]
  rfl

/-- A visualize-mode removal step changes a pixel only by overwriting it
with the marker color. -/
theorem removePhase_pixel_pres {t t' : CarveState} {eo : Option Nat}
    (h : removePhase true t eo = .ok t') (r c : Nat) :
    pixelAt t'.out r c = pixelAt t.out r c
    ∨ pixelAt t'.out r c = [255, 0, 0, 254] := by
  simp only [removePhase] at h
  split at h
  · cases h
    exact Or.inl rfl
  case _ elem =>
    split at h
    case _ row orow hrow horow =>
      rw [if_pos trivial] at h
      split at h
      case _ hguard =>
        have hst' : t' = { t with
            out := t.out.set (nodeAt t.store elem).y
              (orow.set (nodeAt t.store elem).x [255, 0, 0, 254]) } :=
          (Except.ok.inj h).symm
        have hylt : (nodeAt t.store elem).y < t.out.length := by
          by_contra hc2
          rw [List.get?_eq_none.mpr (by omega)] at horow
          exact Option.noConfusion horow
        have horowD : t.out.getD (nodeAt t.store elem).y [] = orow :=
          getD_of_get? horow
        rw [hst']
        show pixelAt (t.out.set (nodeAt t.store elem).y
            (orow.set (nodeAt t.store elem).x [255, 0, 0, 254])) r c = _ ∨ _
        unfold pixelAt
        by_cases hr : (nodeAt t.store elem).y = r
        · rw [← hr, getD_set_eq_of_lt _ hylt, horowD]
          by_cases hc3 : (nodeAt t.store elem).x = c
          · right
            rw [← hc3, getD_set_eq_of_lt _ hguard]
          · left
            rw [getD_set_ne _ hc3]
        · left
          rw [getD_set_ne _ hr]
      · exact Except.noConfusion h
    · exact Except.noConfusion h

/-- `repairNode` never touches the output buffer. -/
theorem repairNode_out {t t' : CarveState} {ui sc_id : Nat}
    (h : repairNode t ui sc_id = .ok t') : t'.out = t.out := by
  simp only [repairNode] at h
  split at h
  case _ row prow hrow hprow =>
    split at h
    case _ middle right hmid hright =>
      have hst' := (Except.ok.inj h).symm
      rw [hst']
    · exact Except.noConfusion h
  · exact Except.noConfusion h

/-- `repairPhase` never touches the output buffer. -/
theorem repairPhase_out {t t' : CarveState} {seam : List (Option Nat)} {sindex : Nat}
    (h : repairPhase t seam sindex = .ok t') : t'.out = t.out := by
  simp only [repairPhase] at h
  split at h
  · cases h
    rfl
  · split at h
    case _ update_elem hue =>
      split at h
      case _ urow hurow =>
        refine foldlM_ok_induct _ (fun s => s.out = t.out) _ t t' h rfl ?_
        intro s a s' _ hok hP
        rw [repairNode_out hok, hP]
      · exact Except.noConfusion h
    · exact Except.noConfusion h

/-- One visualize-mode seam-loop step changes a pixel only by overwriting it
with the marker color. -/
theorem processSindex_pixel_pres {t t' : CarveState} {seam : List (Option Nat)}
    {p : Nat × Option Nat} (h : processSindex true seam t p = .ok t') (r c : Nat) :
    pixelAt t'.out r c = pixelAt t.out r c
    ∨ pixelAt t'.out r c = [255, 0, 0, 254] := by
  simp only [processSindex] at h
  split at h
  case _ st1 h1 =>
    rw [repairPhase_out h]
    exact removePhase_pixel_pres h1 r c
  · exact Except.noConfusion h

/-- One visualize-mode carve iteration changes a pixel only by overwriting
it with the marker color. -/
theorem carveStep_pixel_pres {t t' : CarveState} {i : Nat}
    (h : carveStep true t i = .ok t') (r c : Nat) :
    pixelAt t'.out r c = pixelAt t.out r c
    ∨ pixelAt t'.out r c = [255, 0, 0, 254] := by
  simp only [carveStep] at h
  split at h
  · exact Except.noConfusion h
  case _ bottom hbot =>
    split at h
    · exact Except.noConfusion h
    case _ msd hmsd =>
      refine foldlM_ok_induct _
        (fun s => pixelAt s.out r c = pixelAt t.out r c
          ∨ pixelAt s.out r c = [255, 0, 0, 254]) _ t t' h (Or.inl rfl) ?_
      intro s a s' _ hok hP
      rcases processSindex_pixel_pres hok r c with h1 | h1
      · rw [h1]
        exact hP
      · exact Or.inr h1

/-- A whole visualize-mode run changes a pixel only by overwriting it with
the marker color. -/
theorem runCarves_pixel_pres {t t' : CarveState} {n : Nat}
    (h : runCarves true t n = .ok t') (r c : Nat) :
    pixelAt t'.out r c = pixelAt t.out r c
    ∨ pixelAt t'.out r c = [255, 0, 0, 254] := by
  simp only [runCarves] at h
  refine foldlM_ok_induct _
    (fun s => pixelAt s.out r c = pixelAt t.out r c
      ∨ pixelAt s.out r c = [255, 0, 0, 254]) _ t t' h (Or.inl rfl) ?_
  intro s a s' _ hok hP
  rcases carveStep_pixel_pres hok r c with h1 | h1
  · rw [h1]
    exact hP
  · exact Or.inr h1

/-- Establish-then-preserve induction along a successful `foldlM` run: if
some list element establishes `P` (under the reachability invariant `Q`) and
every step preserves `P`, then `P` holds at the end. -/
theorem foldlM_ok_mark {σ α : Type} (f : σ → α → Except CErr σ)
    (P Q : σ → Prop) (a0 : α)
    (hQ : ∀ t a t', f t a = .ok t' → Q t → Q t')
    (hpres : ∀ t a t', f t a = .ok t' → P t → P t')
    (hest : ∀ t t', f t a0 = .ok t' → Q t → P t') :
    ∀ (l : List α) (s s' : σ), l.foldlM f s = .ok s' → Q s → a0 ∈ l → P s' := by
  intro l
  induction l with
  | nil =>
    intro s s' _ _ hmem
    exact absurd hmem (List.not_mem_nil a0)
  | cons a rest ih =>
    intro s s' h hQs hmem
    rw [List.foldlM_cons] at h
    cases hfa : f s a with
    | error e =>
      rw [hfa] at h
      simp only [Bind.bind, Except.bind] at h
      exact Except.noConfusion h
    | ok u =>
      rw [hfa] at h
      simp only [Bind.bind, Except.bind] at h
      by_cases ha : a = a0
      · rw [ha] at hfa
        have hPu : P u := hest s u hfa hQs
        exact foldlM_ok_induct f P rest u s' h hPu
          (fun t b t' _ hok hP => hpres t b t' hok hP)
      · have hmem' : a0 ∈ rest := by
          rcases List.mem_cons.mp hmem with h1 | h1
          · exact absurd h1.symm ha
          · exact h1
        exact ih u s' h (hQ s a u hfa hQs) hmem'

/-- Handling seam element `c` in visualize mode paints the output pixel at
`c`'s (frozen) coordinates with the marker color. -/
theorem processSindex_marks {s0 : List SCData} {t t' : CarveState}
    {seam : List (Option Nat)} {k c : Nat}
    (hcoords : coordsAgree s0 t.store)
    (h : processSindex true seam t (k, some c) = .ok t') :
    pixelAt t'.out (nodeAt s0 c).y (nodeAt s0 c).x = [255, 0, 0, 254] := by
  simp only [processSindex] at h
  split at h
  case _ st1 h1 =>
    rw [repairPhase_out h]
    simp only [removePhase] at h1
    split at h1
    case _ row orow hrow horow =>
      rw [if_pos trivial] at h1
      split at h1
      case _ hguard =>
        have hst1 : st1 = { t with
            out := t.out.set (nodeAt t.store c).y
              (orow.set (nodeAt t.store c).x [255, 0, 0, 254]) } :=
          (Except.ok.inj h1).symm
        have hylt : (nodeAt t.store c).y < t.out.length := by
          by_contra hc2
          rw [List.get?_eq_none.mpr (by omega)] at horow
          exact Option.noConfusion horow
        rw [hst1]
        show pixelAt (t.out.set (nodeAt t.store c).y
            (orow.set (nodeAt t.store c).x [255, 0, 0, 254]))
          (nodeAt s0 c).y (nodeAt s0 c).x = _
        unfold pixelAt
        rw [← (hcoords c).1, ← (hcoords c).2,
          getD_set_eq_of_lt _ hylt, getD_set_eq_of_lt _ hguard]
      · exact Except.noConfusion h1
    · exact Except.noConfusion h1
  · exact Except.noConfusion h

/-- The seam extracted by a visualize-mode carve iteration is fully painted
with the marker color by the end of that iteration. -/
theorem carveStep_marks {tj t1 : CarveState} {j k c m : Nat}
    (hsort : RowsSorted tj)
    {bottom : List Nat} (hb : tj.energies.getLast? = some bottom)
    (hm : (sortByEnergy tj.store bottom).get? j = some m)
    (hk : (chainUp tj.store tj.store.length m).get? k = some c)
    (h : carveStep true tj j = .ok t1) :
    pixelAt t1.out (nodeAt tj.store c).y (nodeAt tj.store c).x = [255, 0, 0, 254] := by
  simp only [carveStep] at h
  split at h
  · exact Except.noConfusion h
  case _ bottom' hbot =>
    rw [hb] at hbot
    have hbe : bottom = bottom' := Option.some.inj hbot
    rw [← hbe] at h
    split at h
    · exact Except.noConfusion h
    case _ msd hmsd =>
      rw [hm] at hmsd
      have hme : m = msd := Option.some.inj hmsd
      rw [← hme] at h
      have hkl : k < (chainUp tj.store tj.store.length m).length := by
        by_contra hc2
        rw [List.get?_eq_none.mpr (by omega)] at hk
        exact Option.noConfusion hk
      have hseamget : ((chainUp tj.store tj.store.length m).map some ++ [none]).get? k
          = some (some c) := by
        rw [List.get?_append (by rw [List.length_map]; omega), List.get?_map, hk]
        rfl
      have hamem : (k, some c)
          ∈ ((chainUp tj.store tj.store.length m).map some ++ [none]).enum :=
        List.get?_mem (by rw [List.enum_get?, hseamget]; rfl)
      refine foldlM_ok_mark
        (processSindex true ((chainUp tj.store tj.store.length m).map some ++ [none]))
        (fun s => pixelAt s.out (nodeAt tj.store c).y (nodeAt tj.store c).x
          = [255, 0, 0, 254])
        (fun s => RowsSorted s ∧ coordsAgree tj.store s.store)
        (k, some c) ?_ ?_ ?_ _ tj t1 h ⟨hsort, coordsAgree_refl _⟩ hamem
      · intro t a t' hok hQt
        obtain ⟨h1, h2, _, _⟩ := processSindex_inv hok hQt.1
        exact ⟨h1, coordsAgree_trans hQt.2 h2⟩
      · intro t a t' hok hP
        rcases processSindex_pixel_pres hok (nodeAt tj.store c).y
          (nodeAt tj.store c).x with he | hm2
        · rw [he]
          exact hP
        · exact hm2
      · intro t t' hok hQt
        exact processSindex_marks hQt.2 hok

/-- Splitting a successful `foldlM` over an appended list. -/
theorem foldlM_append_exc {σ α : Type} (f : σ → α → Except CErr σ) :
    ∀ (l1 l2 : List α) (s : σ),
    (l1 ++ l2).foldlM f s
      = match l1.foldlM f s with
        | .ok u => l2.foldlM f u
        | .error e => .error e := by
  intro l1
  induction l1 with
  | nil =>
    intro l2 s
    rfl
  | cons a l1 ih =>
    intro l2 s
    show (a :: (l1 ++ l2)).foldlM f s = _
    rw [List.foldlM_cons, List.foldlM_cons]
    cases hfa : f s a with
    | error e => rfl
    | ok u => exact ih l2 u

/-- Every pixel on every seam selected during a visualize-mode run holds the
marker color in the final buffer. -/
theorem runCarves_marks {t : CarveState} (hsort : RowsSorted t) :
    ∀ (n : Nat) (st' : CarveState), runCarves true t n = .ok st' →
    ∀ j : Nat, j < n → ∀ tj : CarveState, runCarves true t j = .ok tj →
    ∀ bottom : List Nat, tj.energies.getLast? = some bottom →
    ∀ m : Nat, (sortByEnergy tj.store bottom).get? j = some m →
    ∀ k c : Nat, (chainUp tj.store tj.store.length m).get? k = some c →
    pixelAt st'.out (nodeAt tj.store c).y (nodeAt tj.store c).x
      = [255, 0, 0, 254] := by
  intro n
  induction n with
  | zero =>
    intro st' _ j hj
    omega
  | succ n ih =>
    intro st' hn j hj tj hjrun bottom hb m hm k c hk
    have hdec : ∃ u, runCarves true t n = .ok u ∧ carveStep true u n = .ok st' := by
      simp only [runCarves] at hn ⊢
      rw [List.range_succ, foldlM_append_exc] at hn
      cases hu : (List.range n).foldlM (carveStep true) t with
      | error e =>
        rw [hu] at hn
        exact Except.noConfusion hn
      | ok u =>
        rw [hu] at hn
        simp only [List.foldlM_cons, List.foldlM, Bind.bind, Except.bind,
          pure, Except.pure] at hn
        cases hstep : carveStep true u n with
        | error e =>
          rw [hstep] at hn
          exact Except.noConfusion hn
        | ok v =>
          rw [hstep] at hn
          refine ⟨u, rfl, ?_⟩
          rw [hstep]
          exact hn
    obtain ⟨u, hu, hstep⟩ := hdec
    by_cases hcase : j < n
    · have hmarked := ih u hu j hcase tj hjrun bottom hb m hm k c hk
      rcases carveStep_pixel_pres hstep (nodeAt tj.store c).y
        (nodeAt tj.store c).x with he | hm2
      · rw [he]
        exact hmarked
      · exact hm2
    · have hje : j = n := by omega
      rw [hje] at hjrun hm
      have htje : tj = u := Except.ok.inj (hjrun.symm.trans hu)
      have hsorttj : RowsSorted tj := (runCarves_inv hjrun hsort).1
      rw [← htje] at hstep
      exact carveStep_marks hsorttj hb hm hk hstep

/-- C8 (amended): in visualize-path mode the carve loop leaves the cost grid
exactly as built (no row is ever deleted from) and preserves every pixel
row's length; every pixel of the painted buffer is either the untouched
input pixel or the in-place marker color `(255, 0, 0, 254)`, and every pixel
on every seam selected during the run holds the marker color; the returned
buffer is that painted buffer cropped to its first `width - count` columns,
the same crop as commit mode. -/
theorem C8_visualize_geometry_and_crop (colors : List (List (List Int)))
    (grads : List (List Int)) (percent : Rat) (g : List (List (List Int)))
    (h : vertical_seamcarve colors grads percent true false = .ok g) :
    ∃ st', runCarves true (initState colors (calculate_sc_datas grads) false)
        (seamCount percent (colors.headD []).length).toNat = .ok st'
      ∧ st'.energies = (calculate_sc_datas grads).energies
      ∧ st'.out.map List.length = colors.map List.length
      ∧ g = st'.out.map (fun row => row.take
          (((colors.headD []).length : Int)
            - seamCount percent (colors.headD []).length).toNat)
      ∧ (∀ r c : Nat, pixelAt st'.out r c = pixelAt colors r c
          ∨ pixelAt st'.out r c = [255, 0, 0, 254])
      ∧ (∀ j : Nat, j < (seamCount percent (colors.headD []).length).toNat →
          ∀ tj : CarveState,
          runCarves true (initState colors (calculate_sc_datas grads) false) j
            = .ok tj →
          ∀ bottom : List Nat, tj.energies.getLast? = some bottom →
          ∀ m : Nat, (sortByEnergy tj.store bottom).get? j = some m →
          ∀ k c : Nat, (chainUp tj.store tj.store.length m).get? k = some c →
          pixelAt st'.out (nodeAt tj.store c).y (nodeAt tj.store c).x
            = [255, 0, 0, 254]) := by
  simp only [vertical_seamcarve] at h
  split at h
  case _ st' hrun =>
    obtain ⟨_, _, hv, ho⟩ :=
      runCarves_inv hrun (initState_rows_sorted colors grads false)
    refine ⟨st', hrun, hv rfl, ho, (Except.ok.inj h).symm, ?_, ?_⟩
    · intro r c
      exact runCarves_pixel_pres hrun r c
    · intro j hjlt tj hjrun bottom hb m hm k c hk
      exact runCarves_marks (initState_rows_sorted colors grads false) _ _ hrun
        j hjlt tj hjrun bottom hb m hm k c hk
  · exact Except.noConfusion h

/-- Witness for the amended C8 on the 1 x 2 image at percent 50. -/
theorem C8_visualize_geometry_and_crop_witness :
    ∃ st', runCarves true (initState colorsRow2 (calculate_sc_datas [[0, 0]]) false)
        (seamCount 50 (colorsRow2.headD []).length).toNat = .ok st'
      ∧ st'.energies = (calculate_sc_datas [[0, 0]]).energies
      ∧ st'.out.map List.length = colorsRow2.map List.length
      ∧ [[[255, 0, 0, 254]]] = st'.out.map (fun row => row.take
          (((colorsRow2.headD []).length : Int)
            - seamCount 50 (colorsRow2.headD []).length).toNat)
      ∧ (∀ r c : Nat, pixelAt st'.out r c = pixelAt colorsRow2 r c
          ∨ pixelAt st'.out r c = [255, 0, 0, 254])
      ∧ (∀ j : Nat, j < (seamCount 50 (colorsRow2.headD []).length).toNat →
          ∀ tj : CarveState,
          runCarves true (initState colorsRow2 (calculate_sc_datas [[0, 0]]) false) j
            = .ok tj →
          ∀ bottom : List Nat, tj.energies.getLast? = some bottom →
          ∀ m : Nat, (sortByEnergy tj.store bottom).get? j = some m →
          ∀ k c : Nat, (chainUp tj.store tj.store.length m).get? k = some c →
          pixelAt st'.out (nodeAt tj.store c).y (nodeAt tj.store c).x
            = [255, 0, 0, 254]) :=
  C8_visualize_geometry_and_crop colorsRow2 [[0, 0]] 50 [[[255, 0, 0, 254]]]
    (by
      unfold vertical_seamcarve
      simp only [show (colorsRow2.headD []).length = 2 from rfl, seamCount_50_2]
      decide)
